import Mathlib

/-!
Verification of the Game of Life engine (`src/engine/grid.py`,
`src/engine/storage.py`, `src/engine/patterns.py`) against its
natural-language specification.

Conventions of the shallow embedding:
* Python `str` values are modelled as `List Char` (whitespace predicates are
  restricted to the ASCII whitespace characters, the only ones that occur in
  the formats at hand).
* `numpy` 2D arrays of `uint8` are modelled either as `List (List Nat)`
  (row-major, one inner list per row) or, for the mutable grid, as a total
  function `Nat → Nat → Nat` read as `cells y x`; only indices
  `y < height`, `x < width` are ever accessed by the embedded code.
* Machine arithmetic on `uint8` is modelled with explicit `% 256`.
* Python `int` arguments (coordinates, sizes) are modelled as `Int`;
  Python `%` on `int` is mathematical modulo, i.e. `Int.emod`, and Python
  `//` is `Int.fdiv`.
* Fallible operations (`np.zeros` with a negative dimension raises
  `ValueError`) are modelled with `Option`.
-/

/-! ### Generic small utilities -/

/-- Entry `m[i][j]` of a row-major matrix, 0 outside the stored rectangle
(embedded code only reads stored entries). -/
def mget (m : List (List Nat)) (i j : Nat) : Nat :=
  (m.getD i []).getD j 0

/-- Number of columns of a row-major matrix (`shape[1]` of a rectangular
2D numpy array). -/
def matWidth (m : List (List Nat)) : Nat :=
  (m.headD []).length

/-- Functional update of a `cells` function at row `y`, column `x`. -/
def updateCell (f : Nat → Nat → Nat) (y x v : Nat) : Nat → Nat → Nat :=
  fun yy xx => if yy = y ∧ xx = x then v else f yy xx

/-- Subtraction `a - b` on `uint8` values (wraps modulo 256). -/
def uint8Sub (a b : Nat) : Nat :=
  (a + 256 - b % 256) % 256

/-! ### The Grid class (`src/engine/grid.py`) -/

/-- State of a `Grid` object.  `cells y x` is the `uint8` entry of the
`height × width` numpy array at row `y`, column `x`. -/
structure Grid where
  width : Nat
  height : Nat
  wrap_mode : String
  cells : Nat → Nat → Nat
  generation : Nat

/-- `Grid.__init__`: `self.cells = np.zeros((height, width), dtype=np.uint8)`
raises `ValueError` iff a requested dimension is negative (zero is accepted
by numpy and produces an empty array); there is no explicit validation in
`__init__`. -/
def Grid.init (width height : Int) (wrap_mode : String) : Option Grid :=
  if width < 0 ∨ height < 0 then none
  else some ⟨width.toNat, height.toNat, wrap_mode, fun _ _ => 0, 0⟩

/-- Coordinate normalisation shared by `get_cell`, `set_cell` and
`toggle_cell`: in `'toroidal'` mode the coordinates are reduced with
Python's `%` (mathematical modulo); in any other mode out-of-range
coordinates are rejected (`none`). Returns the `(row, column)` index
into `cells`. -/
def Grid.normCoord (g : Grid) (x y : Int) : Option (Nat × Nat) :=
  if g.wrap_mode = "toroidal" then
    some ((y % (g.height : Int)).toNat, (x % (g.width : Int)).toNat)
  else if 0 ≤ x ∧ x < (g.width : Int) ∧ 0 ≤ y ∧ y < (g.height : Int) then
    some (y.toNat, x.toNat)
  else none

/-- `Grid.get_cell`: `bool(self.cells[y, x])` after normalisation, `False`
for out-of-range coordinates in bounded mode. -/
def Grid.get_cell (g : Grid) (x y : Int) : Bool :=
  match g.normCoord x y with
  | some (yy, xx) => g.cells yy xx != 0
  | none => false

/-- `Grid.set_cell`: writes `1` or `0` at the normalised coordinate, no-op
for out-of-range coordinates in bounded mode. -/
def Grid.set_cell (g : Grid) (x y : Int) (alive : Bool) : Grid :=
  match g.normCoord x y with
  | some (yy, xx) => { g with cells := updateCell g.cells yy xx (if alive then 1 else 0) }
  | none => g

/-- `Grid.toggle_cell`: writes `1 - self.cells[y, x]` (uint8 arithmetic) at
the normalised coordinate, no-op for out-of-range coordinates in bounded
mode. -/
def Grid.toggle_cell (g : Grid) (x y : Int) : Grid :=
  match g.normCoord x y with
  | some (yy, xx) => { g with cells := updateCell g.cells yy xx (uint8Sub 1 (g.cells yy xx)) }
  | none => g

/-- Entry `(i, j)` of `np.pad(self.cells, 1, ...)`, the `(height+2) × (width+2)`
padded array used by `count_neighbors`: periodic (`mode='wrap'`) padding for
toroidal grids, zero (`mode='constant'`) padding otherwise. -/
def Grid.padded (g : Grid) (i j : Int) : Nat :=
  if g.wrap_mode = "toroidal" then
    g.cells (((i - 1) % (g.height : Int)).toNat) (((j - 1) % (g.width : Int)).toNat)
  else if 1 ≤ i ∧ i ≤ (g.height : Int) ∧ 1 ≤ j ∧ j ≤ (g.width : Int) then
    g.cells (i - 1).toNat (j - 1).toNat
  else 0

/-- `Grid.count_neighbors`: shifted-and-summed accumulation over the eight
Moore directions, on a `uint8` accumulator array (`+=` wraps modulo 256).
`count_neighbors g y x` is entry `(y, x)` of the returned array. -/
def Grid.count_neighbors (g : Grid) : Nat → Nat → Nat :=
  fun y x =>
    ([-1, 0, 1] : List Int).foldl (fun acc dy =>
      ([-1, 0, 1] : List Int).foldl (fun acc2 dx =>
        if dy = 0 ∧ dx = 0 then acc2
        else (acc2 + g.padded (1 + dy + y) (1 + dx + x)) % 256) acc) 0

/-- `Grid.step`: `birth = (cells == 0) & (neighbors == 3)`,
`survive = (cells == 1) & ((neighbors == 2) | (neighbors == 3))`,
`cells = (birth | survive).astype(uint8)`, `generation += 1`. -/
def Grid.step (g : Grid) : Grid :=
  { g with
    cells := fun y x =>
      if (g.cells y x = 0 ∧ g.count_neighbors y x = 3) ∨
         (g.cells y x = 1 ∧ (g.count_neighbors y x = 2 ∨ g.count_neighbors y x = 3))
      then 1 else 0,
    generation := g.generation + 1 }

/-- An `n × k` matrix built from an entry function. -/
def mkMat (n k : Nat) (f : Nat → Nat → Nat) : List (List Nat) :=
  (List.range n).map (fun i => (List.range k).map (f i))

/-- `np.rot90` by 90° counterclockwise: `rot90(m)[i][j] = m[j][w-1-i]`. -/
def rot90ccw (m : List (List Nat)) : List (List Nat) :=
  mkMat (matWidth m) m.length (fun i j => mget m j (matWidth m - 1 - i))

/-- `np.rot90(m, k)`: `k` is reduced modulo 4, then `rot90ccw` is applied
that many times. -/
def pyRot90 (m : List (List Nat)) (k : Int) : List (List Nat) :=
  match (k % 4).toNat with
  | 1 => rot90ccw m
  | 2 => rot90ccw (rot90ccw m)
  | 3 => rot90ccw (rot90ccw (rot90ccw m))
  | _ => m

/-- `Grid.load_pattern`: rotates `pattern_data` clockwise
(`np.rot90(pattern_data, -rotations)` with
`rotations = (rotation // 90) % 4`), then stamps every truthy pattern cell
onto the grid with `set_cell(x + px, y + py, True)`. -/
def Grid.load_pattern (g : Grid) (pattern_data : List (List Nat)) (x y : Int)
    (rotation : Int) : Grid :=
  let rotations := (rotation.fdiv 90) % 4
  let data := pyRot90 pattern_data (-rotations)
  let ph := data.length
  let pw := matWidth data
  (List.range ph).foldl (fun gacc py =>
    (List.range pw).foldl (fun gacc2 px =>
      if mget data py px ≠ 0 then gacc2.set_cell (x + px) (y + py) true
      else gacc2) gacc) g

/-- `Grid.get_region`: toroidal mode wraps every requested cell
independently; bounded mode clamps the request against the grid rectangle
and copies the overlap into a zero `height × width` result at the matching
offset (the slice-assignment semantics for the clamped bounds; numpy's
`ValueError` cases for negative sizes are outside every claim and are not
modelled). -/
def Grid.get_region (g : Grid) (x y width height : Int) : List (List Nat) :=
  if g.wrap_mode = "toroidal" then
    (List.range height.toNat).map (fun row =>
      (List.range width.toNat).map (fun col =>
        g.cells (((y + row) % (g.height : Int)).toNat) (((x + col) % (g.width : Int)).toNat)))
  else
    let x1 := max 0 x
    let y1 := max 0 y
    let x2 := min (g.width : Int) (x + width)
    let y2 := min (g.height : Int) (y + height)
    let rx1 := x1 - x
    let ry1 := y1 - y
    (List.range height.toNat).map (fun row =>
      (List.range width.toNat).map (fun col =>
        if ry1 ≤ (row : Int) ∧ (row : Int) < ry1 + (y2 - y1) ∧
           rx1 ≤ (col : Int) ∧ (col : Int) < rx1 + (x2 - x1)
        then g.cells (y1 + ((row : Int) - ry1)).toNat (x1 + ((col : Int) - rx1)).toNat
        else 0))

/-- `Grid.population`: `int(np.sum(self.cells))`, restricted to the stored
rectangle. -/
def Grid.population (g : Grid) : Nat :=
  ((List.range g.height).map (fun y =>
    ((List.range g.width).map (fun x => g.cells y x)).sum)).sum

/-! ### Specification-side neighbour sums

These two definitions follow the words of the specification (§4.1): for
every cell, the sum of the 8 Moore-neighbourhood cells, with wrapped
coordinates in toroidal mode and off-grid neighbours contributing 0 in
bounded mode.  They are compared with `Grid.count_neighbors` (the
embedding of the numpy pad-shift-sum code) in the claims. -/

/-- Cell value at a wrapped (toroidal) coordinate. -/
def Grid.atWrap (g : Grid) (i j : Int) : Nat :=
  g.cells ((i % (g.height : Int)).toNat) ((j % (g.width : Int)).toNat)

/-- Cell value at a bounded coordinate, 0 off-grid. -/
def Grid.atBounded (g : Grid) (i j : Int) : Nat :=
  if 0 ≤ i ∧ i < (g.height : Int) ∧ 0 ≤ j ∧ j < (g.width : Int) then
    g.cells i.toNat j.toNat
  else 0

/-- Specification Moore-neighbourhood sum, toroidal wrapping. -/
def Grid.wrapNeighborSum (g : Grid) (y x : Nat) : Nat :=
  g.atWrap (y - 1) (x - 1) + g.atWrap (y - 1) x + g.atWrap (y - 1) (x + 1) +
  g.atWrap y (x - 1) + g.atWrap y (x + 1) +
  g.atWrap (y + 1) (x - 1) + g.atWrap (y + 1) x + g.atWrap (y + 1) (x + 1)

/-- Specification Moore-neighbourhood sum, bounded mode. -/
def Grid.boundedNeighborSum (g : Grid) (y x : Nat) : Nat :=
  g.atBounded (y - 1) (x - 1) + g.atBounded (y - 1) x + g.atBounded (y - 1) (x + 1) +
  g.atBounded y (x - 1) + g.atBounded y (x + 1) +
  g.atBounded (y + 1) (x - 1) + g.atBounded (y + 1) x + g.atBounded (y + 1) (x + 1)

/-- Specification neighbour count, dispatching on the wrap mode exactly as
the code does (`'toroidal'` vs. everything else). -/
def Grid.mooreCount (g : Grid) (y x : Nat) : Nat :=
  if g.wrap_mode = "toroidal" then g.wrapNeighborSum y x else g.boundedNeighborSum y x

/-- Well-formedness of a grid state: positive dimensions and boolean
(0/1) cell contents, the invariant maintained by every `Grid` operation. -/
@[reducible]
def Grid.wf (g : Grid) : Prop :=
  0 < g.width ∧ 0 < g.height ∧ ∀ y < g.height, ∀ x < g.width, g.cells y x ≤ 1

/-- Clockwise rotation by 90° as the specification describes it:
`result[i][j] = m[h-1-j][i]`, taking an `h × w` matrix to a `w × h` one.
Used to state the pattern-placement claim; compared with the code's
`np.rot90(pattern, -k)`. -/
def cwRot (m : List (List Nat)) : List (List Nat) :=
  mkMat (matWidth m) m.length (fun i j => mget m (m.length - 1 - j) i)

/-! ### Python string primitives (ASCII fragment)

Python `str` values are `List Char`; these helpers model the `str`
methods used by the codec. -/

/-- ASCII whitespace, the character class stripped by `str.strip` and
matched by `\s` on the inputs at hand. -/
def isPyWs (c : Char) : Bool :=
  c == ' ' || c == '\t' || c == '\n' || c == '\r' || c == '\x0b' || c == '\x0c'

/-- `str.startswith`. -/
def pyStartsWith : List Char → List Char → Bool
  | [], _ => true
  | _ :: _, [] => false
  | p :: ps, c :: cs => p == c && pyStartsWith ps cs

/-- `str.rstrip()`. -/
def pyRstrip (l : List Char) : List Char :=
  (l.reverse.dropWhile isPyWs).reverse

/-- `str.strip()`. -/
def pyStrip (l : List Char) : List Char :=
  ((l.dropWhile isPyWs).reverse.dropWhile isPyWs).reverse

/-- `str.lower()` (ASCII fragment). -/
def pyLower (l : List Char) : List Char :=
  l.map Char.toLower

/-- `str.split(sep)` for a one-character separator: splits at every
occurrence, keeping empty pieces (so the result is never empty). -/
def splitOnChar (sep : Char) : List Char → List (List Char)
  | [] => [[]]
  | c :: rest =>
    match splitOnChar sep rest with
    | [] => []
    | r :: rs => if c = sep then [] :: r :: rs else (c :: r) :: rs

/-- `sep.join(pieces)` for a one-character separator. -/
def joinSep (sep : Char) : List (List Char) → List Char
  | [] => []
  | [l] => l
  | l :: l2 :: rest => l ++ sep :: joinSep sep (l2 :: rest)

/-- The word accumulator behind `pyWords`; `cur` holds the characters of
the word currently being read, in reverse order. -/
def pyWordsAux (cur : List Char) : List Char → List (List Char)
  | [] => if cur.isEmpty then [] else [cur.reverse]
  | c :: t =>
    if isPyWs c then
      (if cur.isEmpty then pyWordsAux [] t else cur.reverse :: pyWordsAux [] t)
    else pyWordsAux (c :: cur) t

/-- `str.split()` with no separator: splits on runs of whitespace and
never yields empty words. -/
def pyWords (s : List Char) : List (List Char) :=
  pyWordsAux [] s

/-- The decimal digit character for `d < 10`. -/
def digitChar (d : Nat) : Char :=
  Char.ofNat (48 + d)

/-- Fuel-indexed decimal rendering; the numeral shrinks by a factor of 10
per step, so any fuel exceeding the number renders it completely. -/
def natDigitsAux : Nat → Nat → List Char
  | 0, _ => []
  | fuel + 1, n =>
    if n < 10 then [digitChar n]
    else natDigitsAux fuel (n / 10) ++ [digitChar (n % 10)]

/-- Decimal rendering of a natural number, as produced by Python's
`str`/f-string formatting. -/
def natDigits (n : Nat) : List Char :=
  natDigitsAux (n + 1) n

/-- Numeric value of a decimal digit string, as computed by Python's
`int(...)` on a string of digits. -/
def digitsVal (l : List Char) : Nat :=
  l.foldl (fun a c => 10 * a + (c.toNat - 48)) 0

/-! ### `PatternStorage.to_rle` (`src/engine/storage.py`) -/

/-- One `row_parts` token of `to_rle`: the run count (omitted when 1)
followed by the tag `o` (run of truthy cells) or `b` (run of dead cells). -/
def runToken (c run : Nat) : List Char :=
  (if run > 1 then natDigits run else []) ++ [if c ≠ 0 then 'o' else 'b']

/-- The `while x < width` encoding loop of `to_rle`, processing the row
run by run; the state `(c, run)` is the value and current length of the
run being read. A trailing dead run produces no token (the loop
`break`s before encoding it). -/
def encodeRunsAux (c run : Nat) : List Nat → List (List Char)
  | [] => if c = 0 then [] else [runToken c run]
  | d :: t =>
    if d = c then encodeRunsAux c (run + 1) t
    else runToken c run :: encodeRunsAux d 1 t

/-- The `row_parts` token list for one row. -/
def encodeRowAux : List Nat → List (List Char)
  | [] => []
  | c :: t => encodeRunsAux c 1 t

/-- `''.join(row_parts)` for one row. -/
def encodeRow (row : List Nat) : List Char :=
  (encodeRowAux row).flatten

/-- `while rle_parts and not rle_parts[-1]: rle_parts.pop()`. -/
def popEmptyRows (l : List (List Char)) : List (List Char) :=
  (l.reverse.dropWhile List.isEmpty).reverse

/-- The encoded pattern body: rows joined with `$`, terminated by `!`. -/
def rleBody (pattern : List (List Nat)) : List Char :=
  joinSep '$' (popEmptyRows (pattern.map encodeRow)) ++ ['!']

/-- The 70-character hard wrap applied to the encoded body: characters are
accumulated into `current_line` and a line is emitted as soon as its
length reaches 70; a non-empty remainder is emitted at the end. -/
def wrapChars (cur : List Char) : List Char → List (List Char)
  | [] => if cur.isEmpty then [] else [cur]
  | c :: rest =>
    if (cur ++ [c]).length ≥ 70 then (cur ++ [c]) :: wrapChars [] rest
    else wrapChars (cur ++ [c]) rest

/-- The word-wrapping loop for the `#C` description lines of `to_rle`:
`current_line` starts as `"#C"`, words are appended while the line stays
within 70 characters, otherwise the line is flushed and a new
`"#C " + word` line is started. -/
def descGo (current : List Char) : List (List Char) → List (List Char)
  | [] => if current ≠ ('#' :: 'C' :: []) then [current] else []
  | wrd :: rest =>
    if current.length + wrd.length + 1 > 70 then
      current :: descGo ('#' :: 'C' :: ' ' :: wrd) rest
    else descGo (current ++ ' ' :: wrd) rest

/-- The `#C` comment lines produced for a pattern description. -/
def wrapDescription (description : List Char) : List (List Char) :=
  descGo ('#' :: 'C' :: []) (pyWords description)

/-- The `x = <w>, y = <h>, rule = B3/S23` header line. -/
def rleHeaderLine (w h : Nat) : List Char :=
  ("x = ").data ++ natDigits w ++ (", y = ").data ++ natDigits h ++ (", rule = B3/S23").data

/-- The list of output lines of `PatternStorage.to_rle`. -/
def toRleLines (pattern : List (List Nat)) (name author description : List Char) :
    List (List Char) :=
  (if name.isEmpty then [] else [("#N ").data ++ name]) ++
  (if author.isEmpty then [] else [("#O ").data ++ author]) ++
  (if description.isEmpty then [] else wrapDescription description) ++
  [rleHeaderLine (matWidth pattern) pattern.length] ++
  wrapChars [] (rleBody pattern)

/-- `PatternStorage.to_rle`: the full RLE text, lines joined with `\n`. -/
def to_rle (pattern : List (List Nat)) (name author description : List Char) : List Char :=
  joinSep '\n' (toRleLines pattern name author description)

/-! ### `PatternLoader.parse_rle` (`src/engine/patterns.py`) -/

/-- Pattern metadata dictionary (`name`, `author`, `description`). -/
structure PatternMeta where
  name : List Char
  author : List Char
  description : List Char
deriving DecidableEq

/-- The initial metadata dictionary (all fields empty). -/
def PatternMeta.empty : PatternMeta := ⟨[], [], []⟩

/-- Matches `\s*=\s*(\d+)` at the head of the text (greedily, which needs
no backtracking here because `\s` cannot match `=` and the following
context exposes no further digits); returns the number and the rest. -/
def matchEqNum (l : List Char) : Option (Nat × List Char) :=
  match l.dropWhile isPyWs with
  | '=' :: l2 =>
    let l3 := l2.dropWhile isPyWs
    let ds := l3.takeWhile Char.isDigit
    if ds.isEmpty then none else some (digitsVal ds, l3.drop ds.length)
  | _ => none

/-- Matches `y\s*=\s*(\d+)` at the head of the text. -/
def matchY (l : List Char) : Option Nat :=
  match l with
  | 'y' :: rest => (matchEqNum rest).map (fun p => p.1)
  | _ => none

/-- The greedy `.*y\s*=\s*(\d+)` tail of the header regular expression:
the backtracking `.*` selects the rightmost position at which the `y`
part matches. -/
def searchYRight : List Char → Option Nat
  | [] => none
  | c :: rest =>
    match searchYRight rest with
    | some n => some n
    | none => matchY (c :: rest)

/-- `re.search(r'x\s*=\s*(\d+).*y\s*=\s*(\d+)', line)`: tries each start
position from the left; at a given `x` the first group takes the maximal
digit run (shrinking it only exposes digits, which cannot start the `y`
part, so no backtracking is needed), and the greedy `.*` picks the
rightmost `y` match. -/
def searchXHeader : List Char → Option (Nat × Nat)
  | [] => none
  | c :: rest =>
    match (if c = 'x' then
             match matchEqNum rest with
             | some (w, after) =>
               match searchYRight after with
               | some h => some (w, h)
               | none => none
             | none => none
           else none) with
    | some p => some p
    | none => searchXHeader rest

/-- State of the line-classification loop of `parse_rle`. -/
structure RleScan where
  meta : PatternMeta
  width : Nat
  height : Nat
  plines : List (List Char)

/-- The `for line in lines` loop of `parse_rle`: strips each line, skips
blanks, consumes `#`-comments (filling the metadata), reads `x`-header
lines through the regular expression, and collects everything else as
pattern data. -/
def parseRleScan : RleScan → List (List Char) → RleScan
  | st, [] => st
  | st, line :: rest =>
    let l := pyStrip line
    if l.isEmpty then parseRleScan st rest
    else if pyStartsWith (("#").data) l then
      (if pyStartsWith (("#N").data) l then
        parseRleScan { st with meta := { st.meta with name := pyStrip (l.drop 2) } } rest
      else if pyStartsWith (("#O").data) l then
        parseRleScan { st with meta := { st.meta with author := pyStrip (l.drop 2) } } rest
      else if pyStartsWith (("#C").data) l ∨ pyStartsWith (("#c").data) l then
        parseRleScan { st with meta := { st.meta with description :=
          (if st.meta.description.isEmpty then pyStrip (l.drop 2)
           else st.meta.description ++ ' ' :: pyStrip (l.drop 2)) } } rest
      else parseRleScan st rest)
    else if pyStartsWith (("x").data) l then
      match searchXHeader l with
      | some (w, h) => parseRleScan { st with width := w, height := h } rest
      | none => parseRleScan st rest
    else parseRleScan { st with plines := st.plines ++ [l] } rest

/-- State of the RLE token-decoding loop: cursor, pending digit string and
the working canvas. -/
structure RleSt where
  x : Nat
  y : Nat
  run : List Char
  data : Nat → Nat → Nat

/-- The `for _ in range(count)` body of the `o` branch: marks cells alive
while they fall inside the canvas, advancing the cursor unconditionally. -/
def writeCells (width height : Nat) (data : Nat → Nat → Nat) (y : Nat) :
    Nat → Nat → (Nat → Nat → Nat) × Nat
  | x, 0 => (data, x)
  | x, Nat.succ k =>
    writeCells width height
      (if y < height ∧ x < width then updateCell data y x 1 else data) y (x + 1) k

/-- `int(run_count) if run_count else 1`. -/
def runVal (run : List Char) : Nat :=
  if run.isEmpty then 1 else digitsVal run

/-- The `for char in pattern_str` token loop of `parse_rle`: digits
accumulate, `b`/`o`/`$` consume the pending count, `!` stops parsing, any
other character is ignored. -/
def decodeRle (width height : Nat) : RleSt → List Char → RleSt
  | st, [] => st
  | st, c :: rest =>
    if c.isDigit then decodeRle width height { st with run := st.run ++ [c] } rest
    else if c = 'b' then
      decodeRle width height { st with x := st.x + runVal st.run, run := [] } rest
    else if c = 'o' then
      decodeRle width height
        { st with data := (writeCells width height st.data st.y st.x (runVal st.run)).1,
                  x := (writeCells width height st.data st.y st.x (runVal st.run)).2,
                  run := [] } rest
    else if c = '$' then
      decodeRle width height { st with y := st.y + runVal st.run, x := 0, run := [] } rest
    else if c = '!' then st
    else decodeRle width height st rest

/-- The line-classification pass of `parse_rle` applied to the split and
stripped input text. -/
def rleScanned (content : List Char) : RleScan :=
  parseRleScan ⟨PatternMeta.empty, 0, 0, []⟩ (splitOnChar '\n' (pyStrip content))

/-- The working-canvas dimensions `(width, height)`: the header values, or
the fixed 100×100 fallback when either is missing or zero. -/
def rleDims (content : List Char) : Nat × Nat :=
  let s := rleScanned content
  if s.width = 0 ∨ s.height = 0 then (100, 100) else (s.width, s.height)

/-- The decoded working canvas of `parse_rle` (`data` after the token
loop), as a function. -/
def rleCanvas (content : List Char) : Nat → Nat → Nat :=
  (decodeRle (rleDims content).1 (rleDims content).2 ⟨0, 0, [], fun _ _ => 0⟩
    ((rleScanned content).plines.flatten)).data

/-- The decoded working canvas as a `height × width` matrix. -/
def rleCanvasMatrix (content : List Char) : List (List Nat) :=
  (List.range (rleDims content).2).map (fun yy =>
    (List.range (rleDims content).1).map (fun xx => rleCanvas content yy xx))

/-- The `# Trim to actual size` step of `parse_rle`: slice down to the
bounding box of the live cells, or return the canvas unchanged when there
are none. -/
def rleTrim (data : List (List Nat)) : List (List Nat) :=
  let rows := data.map (fun row => row.any (fun c => c != 0))
  let cols := (List.range (matWidth data)).map (fun j => data.any (fun row => row.getD j 0 != 0))
  if rows.any id && cols.any id then
    let ymin := rows.findIdx id
    let ymax := rows.length - 1 - rows.reverse.findIdx id
    let xmin := cols.findIdx id
    let xmax := cols.length - 1 - cols.reverse.findIdx id
    ((data.drop ymin).take (ymax + 1 - ymin)).map
      (fun row => (row.drop xmin).take (xmax + 1 - xmin))
  else data

/-- `PatternLoader.parse_rle`: pattern data and metadata. -/
def parse_rle (content : List Char) : List (List Nat) × PatternMeta :=
  (rleTrim (rleCanvasMatrix content), (rleScanned content).meta)

/-! ### `PatternLoader.parse_cells` -/

/-- The `for line in lines` loop of `parse_cells`: `!`-lines feed the
metadata (`name:`/`author:` prefixes case-insensitively, everything else
extending the description), non-blank lines are collected right-stripped. -/
def parseCellsScan : PatternMeta → List (List Char) → List (List Char) →
    PatternMeta × List (List Char)
  | meta, plines, [] => (meta, plines)
  | meta, plines, line :: rest =>
    if pyStartsWith (("!").data) line then
      (if pyStartsWith (("name:").data) (pyLower (pyStrip (line.drop 1))) then
        parseCellsScan { meta with name := pyStrip ((pyStrip (line.drop 1)).drop 5) } plines rest
      else if pyStartsWith (("author:").data) (pyLower (pyStrip (line.drop 1))) then
        parseCellsScan { meta with author := pyStrip ((pyStrip (line.drop 1)).drop 7) } plines rest
      else
        parseCellsScan { meta with description :=
          (if meta.description.isEmpty then pyStrip (line.drop 1)
           else meta.description ++ ' ' :: pyStrip (line.drop 1)) } plines rest)
    else if (pyStrip line).isEmpty then parseCellsScan meta plines rest
    else parseCellsScan meta (plines ++ [pyRstrip line]) rest

/-- The collected pattern lines of a `.cells` input. -/
def cellsPatternLines (content : List Char) : List (List Char) :=
  (parseCellsScan PatternMeta.empty [] (splitOnChar '\n' (pyStrip content))).2

/-- `PatternLoader.parse_cells`: the `1×1` dead sentinel when no pattern
lines exist, otherwise the `height × (max row length)` 0/1 matrix where
`O` and `*` mark live cells. -/
def parse_cells (content : List Char) : List (List Nat) × PatternMeta :=
  let scanned := parseCellsScan PatternMeta.empty [] (splitOnChar '\n' (pyStrip content))
  if scanned.2.isEmpty then ([[0]], scanned.1)
  else
    (scanned.2.map (fun line =>
      (List.range (scanned.2.foldl (fun a l => max a l.length) 0)).map (fun xx =>
        if line.getD xx ' ' = 'O' ∨ line.getD xx ' ' = '*' then 1 else 0)), scanned.1)

/-- The matrix width used by `parse_cells`: the maximum pattern-line
length. -/
def cellsWidth (content : List Char) : Nat :=
  (cellsPatternLines content).foldl (fun a l => max a l.length) 0

/-! ### `PatternStorage.extract_region` -/

/-- A Python slice endpoint `l[i:j]` normalised to an absolute index:
negative values count from the end. -/
def pySliceIdx (n : Nat) (i : Int) : Nat :=
  if i < 0 then ((n : Int) + i).toNat else min i.toNat n

/-- Python list slicing `l[i:j]`. -/
def pySliceList {α : Type} (l : List α) (i j : Int) : List α :=
  (l.drop (pySliceIdx l.length i)).take (pySliceIdx l.length j - pySliceIdx l.length i)

/-- 2D numpy slicing `m[y1:y2, x1:x2]`. -/
def pySlice2D (m : List (List Nat)) (y1 y2 x1 x2 : Int) : List (List Nat) :=
  (pySliceList m y1 y2).map (fun row => pySliceList row x1 x2)

/-- The `# Clamp bounds` slice of `extract_region`:
`grid_cells[max(0,y):min(h,y+height), max(0,x):min(w,x+width)]` with
Python slice semantics. -/
def clampedRegion (grid_cells : List (List Nat)) (x y width height : Int) :
    List (List Nat) :=
  pySlice2D grid_cells (max 0 y) (min ((grid_cells.length : Int)) (y + height))
    (max 0 x) (min ((matWidth grid_cells : Int)) (x + width))

/-- `PatternStorage.extract_region`: clamp, then trim to the bounding box
of the live cells, with a `1×1` dead sentinel when there are none. -/
def extract_region (grid_cells : List (List Nat)) (x y width height : Int) :
    List (List Nat) :=
  let region := clampedRegion grid_cells x y width height
  let rows := region.map (fun row => row.any (fun c => c != 0))
  let cols := (List.range (matWidth region)).map (fun j =>
    region.any (fun row => row.getD j 0 != 0))
  if !(rows.any id) || !(cols.any id) then [[0]]
  else
    let ymin := rows.findIdx id
    let ymax := rows.length - 1 - rows.reverse.findIdx id
    let xmin := cols.findIdx id
    let xmax := cols.length - 1 - cols.reverse.findIdx id
    ((region.drop ymin).take (ymax + 1 - ymin)).map
      (fun row => (row.drop xmin).take (xmax + 1 - xmin))

/-! ### Claim-side auxiliary predicates -/

/-- Live-cell count (`np.sum`) of a 0/1 matrix. -/
def countLive (m : List (List Nat)) : Nat :=
  (m.map List.sum).sum

/-- Rectangularity: every row has the matrix width. -/
@[reducible]
def matRect (m : List (List Nat)) : Prop :=
  ∀ row ∈ m, row.length = matWidth m

/-- 0/1-valued entries. -/
@[reducible]
def matBinary (m : List (List Nat)) : Prop :=
  ∀ row ∈ m, ∀ c ∈ row, c ≤ 1

/-- The border rows of a matrix (first and last, when any row exists). -/
def borderRows (m : List (List Nat)) : List (List Nat) :=
  match m with
  | [] => []
  | r :: _ => [r, m.getLastD r]

/-- The border column indices of a matrix (first and last, when any
column exists). -/
def borderCols (m : List (List Nat)) : List Nat :=
  if matWidth m = 0 then [] else [0, matWidth m - 1]

/-- The matrix has no fully-dead border rows or columns. -/
@[reducible]
def noDeadBorders (m : List (List Nat)) : Prop :=
  (∀ r ∈ borderRows m, ∃ c ∈ r, c ≠ 0) ∧
  (∀ j ∈ borderCols m, ∃ i < m.length, mget m i j ≠ 0)

/-- Cell `(i, j)` of `grid_cells` is live and lies inside the requested
`[x, x+width) × [y, y+height)` region (the specification's notion of the
clamped region for `extract_region`). -/
@[reducible]
def liveInReq (grid_cells : List (List Nat)) (x y width height : Int) (i j : Nat) : Prop :=
  mget grid_cells i j ≠ 0 ∧ i < grid_cells.length ∧ j < matWidth grid_cells ∧
  y ≤ (i : Int) ∧ (i : Int) < y + height ∧ x ≤ (j : Int) ∧ (j : Int) < x + width

/-- A 5×5 bounded grid holding a horizontal blinker in row 1. -/
def blinkerGrid : Grid :=
  ⟨5, 5, "bounded", fun y x => if y = 1 ∧ x ≤ 2 then 1 else 0, 0⟩

/-- A 4×3 toroidal grid with a single live cell at `(x, y) = (0, 1)`. -/
def seamGrid : Grid :=
  ⟨4, 3, "toroidal", fun y x => if y = 1 ∧ x = 0 then 1 else 0, 0⟩

/-- The characters that can occur in an encoded RLE body: digits, the run
tags, the row separator and the terminator. -/
def rleChar (c : Char) : Bool :=
  c.isDigit || c == 'o' || c == 'b' || c == '$' || c == '!'


/-- The effect on the canvas of decoding one encoded segment of a row:
positions `x ≤ xx < x + seg.length` holding a non-zero segment entry are
set to 1 (only inside the canvas), everything else is untouched. -/
def segWrite (data : Nat → Nat → Nat) (width height y x : Nat) (seg : List Nat) :
    Nat → Nat → Nat :=
  fun yy xx =>
    if y < height ∧ yy = y ∧ x ≤ xx ∧ xx < x + seg.length ∧ xx < width ∧
        seg.getD (xx - x) 0 ≠ 0
    then 1 else data yy xx

/-- The effect on the canvas of decoding a block of rows starting at row
`y`: live entries of the block are set to 1 (inside the canvas),
everything else is untouched. -/
def rowsWrite (data : Nat → Nat → Nat) (width height y : Nat)
    (rows : List (List Nat)) : Nat → Nat → Nat :=
  fun yy xx =>
    if y ≤ yy ∧ yy < y + rows.length ∧ yy < height ∧ xx < width ∧
        (rows.getD (yy - y) []).getD xx 0 ≠ 0
    then 1 else data yy xx


/-! ### Helper lemmas: neighbour counting -/

/-- In toroidal mode the padded array is the periodic extension of `cells`. -/
theorem Grid.padded_toroidal (g : Grid) (h : g.wrap_mode = "toroidal") (i j : Int) :
    g.padded i j = g.atWrap (i - 1) (j - 1) := by
  simp [Grid.padded, Grid.atWrap, h]

/-- In any non-toroidal mode the padded array is the zero extension of `cells`. -/
theorem Grid.padded_bounded (g : Grid) (h : ¬ g.wrap_mode = "toroidal") (i j : Int) :
    g.padded i j = g.atBounded (i - 1) (j - 1) := by
  simp only [Grid.padded, Grid.atBounded, if_neg h]
  by_cases hc : 1 ≤ i ∧ i ≤ (g.height : Int) ∧ 1 ≤ j ∧ j ≤ (g.width : Int)
  · rw [if_pos hc, if_pos (by omega)]
  · rw [if_neg hc, if_neg (by omega)]

/-- Wrapped accesses of a well-formed grid are 0/1-valued. -/
theorem Grid.atWrap_le_one (g : Grid) (hwf : g.wf) (i j : Int) : g.atWrap i j ≤ 1 := by
  obtain ⟨hw, hh, hb⟩ := hwf
  have h1 : 0 ≤ i % (g.height : Int) := Int.emod_nonneg i (by exact_mod_cast hh.ne')
  have h2 : i % (g.height : Int) < (g.height : Int) := Int.emod_lt_of_pos i (by exact_mod_cast hh)
  have h3 : 0 ≤ j % (g.width : Int) := Int.emod_nonneg j (by exact_mod_cast hw.ne')
  have h4 : j % (g.width : Int) < (g.width : Int) := Int.emod_lt_of_pos j (by exact_mod_cast hw)
  exact hb _ (by omega) _ (by omega)

/-- Bounded accesses of a well-formed grid are 0/1-valued. -/
theorem Grid.atBounded_le_one (g : Grid) (hwf : g.wf) (i j : Int) : g.atBounded i j ≤ 1 := by
  obtain ⟨hw, hh, hb⟩ := hwf
  unfold Grid.atBounded
  by_cases hc : 0 ≤ i ∧ i < (g.height : Int) ∧ 0 ≤ j ∧ j < (g.width : Int)
  · rw [if_pos hc]
    exact hb _ (by omega) _ (by omega)
  · rw [if_neg hc]
    omega

/-- The pad-shift-sum loop of `count_neighbors` computes the
specification's Moore-neighbourhood sum, in either wrap mode. -/
theorem Grid.count_neighbors_eq_moore (g : Grid) (hwf : g.wf) (y x : Nat) :
    g.count_neighbors y x = g.mooreCount y x := by
  by_cases hmode : g.wrap_mode = "toroidal"
  · have b1 := g.atWrap_le_one hwf ((y : Int) - 1) ((x : Int) - 1)
    have b2 := g.atWrap_le_one hwf ((y : Int) - 1) (x : Int)
    have b3 := g.atWrap_le_one hwf ((y : Int) - 1) ((x : Int) + 1)
    have b4 := g.atWrap_le_one hwf (y : Int) ((x : Int) - 1)
    have b5 := g.atWrap_le_one hwf (y : Int) ((x : Int) + 1)
    have b6 := g.atWrap_le_one hwf ((y : Int) + 1) ((x : Int) - 1)
    have b7 := g.atWrap_le_one hwf ((y : Int) + 1) (x : Int)
    have b8 := g.atWrap_le_one hwf ((y : Int) + 1) ((x : Int) + 1)
    simp only [Grid.count_neighbors, Grid.mooreCount, Grid.wrapNeighborSum, if_pos hmode,
      List.foldl_cons, List.foldl_nil, Grid.padded_toroidal g hmode]
    norm_num
    ring_nf
    ring_nf at b1 b2 b3 b4 b5 b6 b7 b8
    omega
  · have b1 := g.atBounded_le_one hwf ((y : Int) - 1) ((x : Int) - 1)
    have b2 := g.atBounded_le_one hwf ((y : Int) - 1) (x : Int)
    have b3 := g.atBounded_le_one hwf ((y : Int) - 1) ((x : Int) + 1)
    have b4 := g.atBounded_le_one hwf (y : Int) ((x : Int) - 1)
    have b5 := g.atBounded_le_one hwf (y : Int) ((x : Int) + 1)
    have b6 := g.atBounded_le_one hwf ((y : Int) + 1) ((x : Int) - 1)
    have b7 := g.atBounded_le_one hwf ((y : Int) + 1) (x : Int)
    have b8 := g.atBounded_le_one hwf ((y : Int) + 1) ((x : Int) + 1)
    simp only [Grid.count_neighbors, Grid.mooreCount, Grid.boundedNeighborSum, if_neg hmode,
      List.foldl_cons, List.foldl_nil, Grid.padded_bounded g hmode]
    norm_num
    ring_nf
    ring_nf at b1 b2 b3 b4 b5 b6 b7 b8
    omega

/-! ### Claim C1 -/

/-- C1: for every well-formed grid state, `step()` applies the B3/S23 rule
from a snapshot of the old state — after `step()`, a cell is alive iff it
was dead with exactly 3 live neighbours or alive with 2 or 3 live
neighbours, all neighbour counts (`mooreCount`, the specification's
Moore-neighbourhood sum) being taken against the pre-step cells — and
`step()` increments `generation` by exactly 1. -/
theorem C1_step_b3s23 (g : Grid) (hwf : g.wf) :
    (∀ y < g.height, ∀ x < g.width,
      ((g.step.cells y x ≠ 0) ↔
        ((g.cells y x = 0 ∧ g.mooreCount y x = 3) ∨
         (g.cells y x ≠ 0 ∧ (g.mooreCount y x = 2 ∨ g.mooreCount y x = 3))))) ∧
    g.step.generation = g.generation + 1 := by
  constructor
  · intro y hy x hx
    have hc := g.count_neighbors_eq_moore hwf y x
    have hcell : g.cells y x ≤ 1 := hwf.2.2 y hy x hx
    simp only [Grid.step]
    split_ifs with h
    · constructor
      · intro _
        omega
      · intro _
        omega
    · constructor
      · intro hcon
        omega
      · intro hd
        omega
  · rfl

/-- Witness for C1 at a concrete input: the blinker grid is well-formed,
and the cell above the blinker's centre is born (it is dead with exactly
3 live neighbours), with the generation counter advancing from 0 to 1. -/
theorem C1_witness :
    blinkerGrid.wf ∧
    ((blinkerGrid.step.cells 0 1 ≠ 0) ↔
      ((blinkerGrid.cells 0 1 = 0 ∧ blinkerGrid.mooreCount 0 1 = 3) ∨
       (blinkerGrid.cells 0 1 ≠ 0 ∧
         (blinkerGrid.mooreCount 0 1 = 2 ∨ blinkerGrid.mooreCount 0 1 = 3)))) ∧
    blinkerGrid.step.generation = blinkerGrid.generation + 1 :=
  ⟨by decide, (C1_step_b3s23 blinkerGrid (by decide)).1 0 (by decide) 1 (by decide),
    (C1_step_b3s23 blinkerGrid (by decide)).2⟩

/-! ### Claim C6 -/

/-- C6: `count_neighbors` returns, for every cell, the sum of its 8
Moore-neighbourhood cells — with toroidal wrapping to the opposite edge in
toroidal mode and off-grid neighbours contributing 0 in bounded mode —
and in particular a live cell at `(0, y)` is counted as a neighbour of
the cell at `(width-1, y)` and vice versa in toroidal mode. -/
theorem C6_count_neighbors_moore (g : Grid) (hwf : g.wf) :
    (∀ y < g.height, ∀ x < g.width,
      (g.wrap_mode = "toroidal" → g.count_neighbors y x = g.wrapNeighborSum y x) ∧
      (g.wrap_mode = "bounded" → g.count_neighbors y x = g.boundedNeighborSum y x)) ∧
    (g.wrap_mode = "toroidal" → 2 ≤ g.width →
      ∀ y < g.height,
        (g.cells y 0 ≠ 0 → 1 ≤ g.count_neighbors y (g.width - 1)) ∧
        (g.cells y (g.width - 1) ≠ 0 → 1 ≤ g.count_neighbors y 0)) := by
  have hmc := g.count_neighbors_eq_moore hwf
  constructor
  · intro y _ x _
    constructor
    · intro hmode
      rw [hmc y x, Grid.mooreCount, if_pos hmode]
    · intro hmode
      rw [hmc y x, Grid.mooreCount, if_neg (by rw [hmode]; decide)]
  · intro hmode hw2 y hy
    have hww : (0 : Int) < (g.width : Int) := by exact_mod_cast hwf.1
    have hyh : ((y : Int)) % (g.height : Int) = (y : Int) :=
      Int.emod_eq_of_lt (by omega) (by exact_mod_cast hy)
    constructor
    · intro hlive
      have h5 : g.atWrap (y : Int) (((g.width - 1 : Nat) : Int) + 1) = g.cells y 0 := by
        have hcast : (((g.width - 1 : Nat) : Int) + 1) = (g.width : Int) := by
          omega
        rw [Grid.atWrap, hcast, Int.emod_self, hyh]
        simp
      rw [hmc y (g.width - 1), Grid.mooreCount, if_pos hmode, Grid.wrapNeighborSum]
      omega
    · intro hlive
      have h5 : g.atWrap (y : Int) (((0 : Nat) : Int) - 1) = g.cells y (g.width - 1) := by
        have hm1 : ((0 : Int) - 1) % (g.width : Int) = ((g.width : Int) - 1) := by
          have h1 : ((0 : Int) - 1) % (g.width : Int) =
              ((0 : Int) - 1 + (g.width : Int) * 1) % (g.width : Int) :=
            (Int.add_mul_emod_self_left ((0 : Int) - 1) (g.width : Int) 1).symm
          rw [h1]
          have h2 : ((0 : Int) - 1 + (g.width : Int) * 1) = ((g.width : Int) - 1) := by ring
          rw [h2]
          exact Int.emod_eq_of_lt (by omega) (by omega)
        rw [Grid.atWrap]
        rw [show (((0 : Nat) : Int) - 1) = ((0 : Int) - 1) by norm_num, hm1, hyh]
        congr 1
        omega
      rw [hmc y 0, Grid.mooreCount, if_pos hmode, Grid.wrapNeighborSum]
      omega

/-- Witness for C6 at a concrete input: on the 4×3 toroidal `seamGrid`,
which is well-formed and at least 2 wide, the live cell at `(0, 1)` is
seen by the neighbour count of the opposite-edge cell `(3, 1)`. -/
theorem C6_witness :
    seamGrid.wf ∧ seamGrid.wrap_mode = "toroidal" ∧ 2 ≤ seamGrid.width ∧
    (seamGrid.cells 1 0 ≠ 0 → 1 ≤ seamGrid.count_neighbors 1 (seamGrid.width - 1)) :=
  ⟨by decide, by decide, by decide,
    ((C6_count_neighbors_moore seamGrid (by decide)).2 (by decide) (by decide) 1 (by decide)).1⟩

/-! ### Claim C4 -/

/-- C4 counterexample: the claim says construction fails exactly when a
dimension is non-positive, but `Grid(0, 5, ...)` — a non-positive width —
constructs successfully (numpy accepts zero-sized dimensions; only
negative ones raise). -/
theorem C4_counterexample : (Grid.init 0 5 "toroidal").isSome = true := by decide

/-- C4 (amended): grid construction fails exactly when a dimension is
negative: for every non-negative width and height construction succeeds
and yields all-dead cells with generation 0, and for every negative width
or height it is rejected immediately. -/
theorem C4_init_negative (width height : Int) (wrap_mode : String) :
    (0 ≤ width → 0 ≤ height →
      Grid.init width height wrap_mode =
        some ⟨width.toNat, height.toNat, wrap_mode, fun _ _ => 0, 0⟩) ∧
    ((width < 0 ∨ height < 0) → Grid.init width height wrap_mode = none) := by
  constructor
  · intro h1 h2
    rw [Grid.init, if_neg (by omega)]
  · intro h
    rw [Grid.init, if_pos h]

/-- Witness for C4 at concrete inputs: `Grid(3, 4)` succeeds all-dead at
generation 0, `Grid(-2, 4)` is rejected. -/
theorem C4_witness :
    (0 : Int) ≤ 3 ∧ (0 : Int) ≤ 4 ∧
    Grid.init 3 4 "bounded" =
      some ⟨(3 : Int).toNat, (4 : Int).toNat, "bounded", fun _ _ => 0, 0⟩ ∧
    ((-2 : Int) < 0 ∨ (4 : Int) < 0) ∧ Grid.init (-2) 4 "bounded" = none :=
  ⟨by decide, by decide, (C4_init_negative 3 4 "bounded").1 (by decide) (by decide),
   Or.inl (by decide), (C4_init_negative (-2) 4 "bounded").2 (Or.inl (by decide))⟩

/-! ### Claim C5 -/

/-- C5: for every coordinate, including negative and out-of-range values,
toroidal `get_cell`/`set_cell`/`toggle_cell` access the cell at
`(x mod width, y mod height)` with mathematical (never-negative) modulo,
while in bounded mode out-of-range coordinates make the mutators no-ops
and make `get_cell` return dead. -/
theorem C5_coord_normalization (g : Grid) (hw : 0 < g.width) (hh : 0 < g.height)
    (x y : Int) (alive : Bool) :
    (g.wrap_mode = "toroidal" →
      (0 ≤ x % (g.width : Int) ∧ x % (g.width : Int) < (g.width : Int) ∧
       0 ≤ y % (g.height : Int) ∧ y % (g.height : Int) < (g.height : Int)) ∧
      g.get_cell x y =
        (g.cells (y % (g.height : Int)).toNat (x % (g.width : Int)).toNat != 0) ∧
      (g.set_cell x y alive).cells =
        updateCell g.cells (y % (g.height : Int)).toNat (x % (g.width : Int)).toNat
          (if alive then 1 else 0) ∧
      (g.toggle_cell x y).cells =
        updateCell g.cells (y % (g.height : Int)).toNat (x % (g.width : Int)).toNat
          (uint8Sub 1 (g.cells (y % (g.height : Int)).toNat (x % (g.width : Int)).toNat))) ∧
    (g.wrap_mode = "bounded" →
      ¬(0 ≤ x ∧ x < (g.width : Int) ∧ 0 ≤ y ∧ y < (g.height : Int)) →
      g.get_cell x y = false ∧ g.set_cell x y alive = g ∧ g.toggle_cell x y = g) := by
  constructor
  · intro hmode
    have hnorm : g.normCoord x y =
        some ((y % (g.height : Int)).toNat, (x % (g.width : Int)).toNat) := by
      rw [Grid.normCoord, if_pos hmode]
    refine ⟨⟨?_, ?_, ?_, ?_⟩, ?_, ?_, ?_⟩
    · exact Int.emod_nonneg x (by exact_mod_cast hw.ne')
    · exact Int.emod_lt_of_pos x (by exact_mod_cast hw)
    · exact Int.emod_nonneg y (by exact_mod_cast hh.ne')
    · exact Int.emod_lt_of_pos y (by exact_mod_cast hh)
    · rw [Grid.get_cell, hnorm]
    · rw [Grid.set_cell, hnorm]
    · rw [Grid.toggle_cell, hnorm]
  · intro hmode hrange
    have hne : ¬(g.wrap_mode = "toroidal") := by rw [hmode]; decide
    have hnorm : g.normCoord x y = none := by
      rw [Grid.normCoord, if_neg hne, if_neg hrange]
    exact ⟨by rw [Grid.get_cell, hnorm], by rw [Grid.set_cell, hnorm],
      by rw [Grid.toggle_cell, hnorm]⟩

/-- Witness for C5 at concrete inputs: on the toroidal 4×3 `seamGrid`,
reading at the negative coordinate `(-4, 7)` reads the wrapped cell; on
the bounded `blinkerGrid`, mutating out of range is a no-op. -/
theorem C5_witness :
    0 < seamGrid.width ∧ 0 < seamGrid.height ∧
    seamGrid.get_cell (-4) 7 =
      (seamGrid.cells ((7 : Int) % (seamGrid.height : Int)).toNat
        ((-4 : Int) % (seamGrid.width : Int)).toNat != 0) ∧
    blinkerGrid.toggle_cell 9 1 = blinkerGrid :=
  ⟨by decide, by decide,
   (((C5_coord_normalization seamGrid (by decide) (by decide) (-4) 7 true).1
      (by rfl)).2).1,
   (((C5_coord_normalization blinkerGrid (by decide) (by decide) 9 1 true).2
      (by rfl)) (by decide)).2.2⟩

/-! ### Claim C10 -/

/-- C10: for every wrap-mode string other than exactly `"toroidal"`
(including `"bounded"`, `"Toroidal"`, or anything unrecognized),
construction succeeds without rejecting the value, and `get_cell`,
`set_cell`, `toggle_cell`, `count_neighbors` and `get_region` behave
identically, on every input, to a grid in `"bounded"` mode. -/
theorem C10_unrecognized_mode_is_bounded (w h : Nat) (cells : Nat → Nat → Nat)
    (gen : Nat) (s : String) (hs : s ≠ "toroidal") :
    (∀ wi hi : Int, 0 ≤ wi → 0 ≤ hi → (Grid.init wi hi s).isSome = true) ∧
    (∀ wi hi : Int, (Grid.init wi hi s).isSome = (Grid.init wi hi "bounded").isSome) ∧
    (∀ x y : Int,
      (Grid.mk w h s cells gen).get_cell x y =
      (Grid.mk w h "bounded" cells gen).get_cell x y) ∧
    (∀ (x y : Int) (a : Bool),
      ((Grid.mk w h s cells gen).set_cell x y a).cells =
      ((Grid.mk w h "bounded" cells gen).set_cell x y a).cells) ∧
    (∀ x y : Int,
      ((Grid.mk w h s cells gen).toggle_cell x y).cells =
      ((Grid.mk w h "bounded" cells gen).toggle_cell x y).cells) ∧
    (∀ y x : Nat,
      (Grid.mk w h s cells gen).count_neighbors y x =
      (Grid.mk w h "bounded" cells gen).count_neighbors y x) ∧
    (∀ x y rw rh : Int,
      (Grid.mk w h s cells gen).get_region x y rw rh =
      (Grid.mk w h "bounded" cells gen).get_region x y rw rh) := by
  have hb : ¬(("bounded" : String) = "toroidal") := by decide
  have hnorm : ∀ x y : Int,
      (Grid.mk w h s cells gen).normCoord x y =
      (Grid.mk w h "bounded" cells gen).normCoord x y := by
    intro x y
    simp only [Grid.normCoord, if_neg hs, if_neg hb]
  have hpad : ∀ i j : Int,
      (Grid.mk w h s cells gen).padded i j =
      (Grid.mk w h "bounded" cells gen).padded i j := by
    intro i j
    simp only [Grid.padded, if_neg hs, if_neg hb]
  refine ⟨?_, ?_, ?_, ?_, ?_, ?_, ?_⟩
  · intro wi hi h1 h2
    rw [Grid.init, if_neg (by omega)]
    rfl
  · intro wi hi
    rw [Grid.init, Grid.init]
    by_cases hcond : wi < 0 ∨ hi < 0
    · rw [if_pos hcond, if_pos hcond]
    · rw [if_neg hcond, if_neg hcond]
      rfl
  · intro x y
    rw [Grid.get_cell, Grid.get_cell, hnorm]
  · intro x y a
    rw [Grid.set_cell, Grid.set_cell, hnorm]
    cases hcase : (Grid.mk w h "bounded" cells gen).normCoord x y <;> rfl
  · intro x y
    rw [Grid.toggle_cell, Grid.toggle_cell, hnorm]
    cases hcase : (Grid.mk w h "bounded" cells gen).normCoord x y <;> rfl
  · intro y x
    simp only [Grid.count_neighbors, hpad]
  · intro x y rw rh
    simp only [Grid.get_region, if_neg hs, if_neg hb]

/-- Witness for C10 at concrete inputs: with the mis-capitalized mode
`"Toroidal"`, construction succeeds and `get_cell` agrees with bounded
mode at an out-of-range coordinate. -/
theorem C10_witness :
    ("Toroidal" : String) ≠ "toroidal" ∧
    (Grid.init 7 9 "Toroidal").isSome = true ∧
    (Grid.mk 2 2 "Toroidal" (fun _ _ => 0) 0).get_cell 5 (-3) =
      (Grid.mk 2 2 "bounded" (fun _ _ => 0) 0).get_cell 5 (-3) :=
  ⟨by decide,
   (C10_unrecognized_mode_is_bounded 2 2 (fun _ _ => 0) 0 "Toroidal" (by decide)).1 7 9
     (by decide) (by decide),
   (C10_unrecognized_mode_is_bounded 2 2 (fun _ _ => 0) 0 "Toroidal" (by decide)).2.2.1 5 (-3)⟩

/-! ### Helper lemmas: matrices and rotations -/

/-- Length of a built matrix. -/
theorem mkMat_length (n k : Nat) (f : Nat → Nat → Nat) : (mkMat n k f).length = n := by
  simp [mkMat]

/-- Width of a built matrix with at least one row. -/
theorem mkMat_width (n k : Nat) (f : Nat → Nat → Nat) (hn : 0 < n) :
    matWidth (mkMat n k f) = k := by
  unfold mkMat matWidth
  cases n with
  | zero => omega
  | succ n' =>
    rw [List.range_succ_eq_map]
    simp

/-- Entries of a built matrix. -/
theorem mget_mkMat (n k : Nat) (f : Nat → Nat → Nat) (i j : Nat) (hi : i < n) (hj : j < k) :
    mget (mkMat n k f) i j = f i j := by
  unfold mget mkMat
  have houter : (List.map (fun a => List.map (f a) (List.range k)) (List.range n)).getD i [] =
      List.map (f i) (List.range k) := by
    rw [List.getD_eq_getElem _ _ (by simp [hi])]
    rw [List.getElem_map, List.getElem_range]
  rw [houter]
  rw [List.getD_eq_getElem _ _ (by simp [hj])]
  rw [List.getElem_map, List.getElem_range]

/-- Pointwise congruence for built matrices. -/
theorem mkMat_congr (n k : Nat) (f f2 : Nat → Nat → Nat)
    (h : ∀ i < n, ∀ j < k, f i j = f2 i j) : mkMat n k f = mkMat n k f2 := by
  unfold mkMat
  apply List.map_congr_left
  intro i hi
  apply List.map_congr_left
  intro j hj
  exact h i (List.mem_range.mp hi) j (List.mem_range.mp hj)

/-- A matrix of zero width rotates (in either direction) to the empty list. -/
theorem rot_zero_width (m : List (List Nat)) (hw : matWidth m = 0) :
    rot90ccw m = [] ∧ cwRot m = [] := by
  constructor <;> simp [rot90ccw, cwRot, hw, mkMat]

/-- `rot90ccw` on the empty matrix. -/
theorem rot90ccw_nil : rot90ccw [] = [] := by
  simp [rot90ccw, mkMat, matWidth]

/-- `cwRot` on the empty matrix. -/
theorem cwRot_nil : cwRot [] = [] := by
  simp [cwRot, mkMat, matWidth]

/-- The double rotation (either direction twice) is the 180° turn
`(i, j) ↦ m[h-1-i][w-1-j]`, for a matrix with positive dimensions. -/
theorem rot180_eq (m : List (List Nat)) (hh : 0 < m.length) (hw : 0 < matWidth m) :
    rot90ccw (rot90ccw m) =
      mkMat m.length (matWidth m)
        (fun i j => mget m (m.length - 1 - i) (matWidth m - 1 - j)) ∧
    cwRot (cwRot m) =
      mkMat m.length (matWidth m)
        (fun i j => mget m (m.length - 1 - i) (matWidth m - 1 - j)) := by
  constructor
  · rw [show rot90ccw (rot90ccw m) = mkMat (matWidth (rot90ccw m)) (rot90ccw m).length
        (fun i j => mget (rot90ccw m) j (matWidth (rot90ccw m) - 1 - i)) from rfl]
    rw [show rot90ccw m = mkMat (matWidth m) m.length
        (fun i j => mget m j (matWidth m - 1 - i)) from rfl]
    rw [mkMat_width _ _ _ hw, mkMat_length]
    apply mkMat_congr
    intro i hi j hj
    rw [mget_mkMat _ _ _ _ _ hj (by omega)]
  · rw [show cwRot (cwRot m) = mkMat (matWidth (cwRot m)) (cwRot m).length
        (fun i j => mget (cwRot m) ((cwRot m).length - 1 - j) i) from rfl]
    rw [show cwRot m = mkMat (matWidth m) m.length
        (fun i j => mget m (m.length - 1 - j) i) from rfl]
    rw [mkMat_width _ _ _ hw, mkMat_length]
    apply mkMat_congr
    intro i hi j hj
    rw [mget_mkMat _ _ _ _ _ (by omega) hi]

/-- Three counterclockwise quarter turns are one clockwise quarter turn. -/
theorem ccw_ccw_ccw_eq_cw (m : List (List Nat)) :
    rot90ccw (rot90ccw (rot90ccw m)) = cwRot m := by
  by_cases hw : 0 < matWidth m
  · have hh : 0 < m.length := by
      cases m with
      | nil => simp [matWidth] at hw
      | cons a t => simp
    obtain ⟨h180, _⟩ := rot180_eq m hh hw
    rw [h180]
    rw [show rot90ccw (mkMat m.length (matWidth m)
          (fun i j => mget m (m.length - 1 - i) (matWidth m - 1 - j))) =
        mkMat (matWidth (mkMat m.length (matWidth m)
          (fun i j => mget m (m.length - 1 - i) (matWidth m - 1 - j))))
          (mkMat m.length (matWidth m)
            (fun i j => mget m (m.length - 1 - i) (matWidth m - 1 - j))).length
          (fun i j => mget (mkMat m.length (matWidth m)
            (fun i j => mget m (m.length - 1 - i) (matWidth m - 1 - j))) j
            (matWidth (mkMat m.length (matWidth m)
              (fun i j => mget m (m.length - 1 - i) (matWidth m - 1 - j))) - 1 - i))
        from rfl]
    rw [mkMat_width _ _ _ hh, mkMat_length]
    rw [show cwRot m = mkMat (matWidth m) m.length
        (fun i j => mget m (m.length - 1 - j) i) from rfl]
    apply mkMat_congr
    intro i hi j hj
    rw [mget_mkMat _ _ _ _ _ hj (by omega)]
    congr 1
    omega
  · have hw0 : matWidth m = 0 := by omega
    obtain ⟨e1, e2⟩ := rot_zero_width m hw0
    rw [e1, rot90ccw_nil, rot90ccw_nil, e2]

/-- Two counterclockwise quarter turns are two clockwise quarter turns. -/
theorem ccw_ccw_eq_cw_cw (m : List (List Nat)) :
    rot90ccw (rot90ccw m) = cwRot (cwRot m) := by
  by_cases hw : 0 < matWidth m
  · have hh : 0 < m.length := by
      cases m with
      | nil => simp [matWidth] at hw
      | cons a t => simp
    obtain ⟨h1, h2⟩ := rot180_eq m hh hw
    rw [h1, h2]
  · have hw0 : matWidth m = 0 := by omega
    obtain ⟨e1, e2⟩ := rot_zero_width m hw0
    rw [e1, rot90ccw_nil, e2, cwRot_nil]

/-- One counterclockwise quarter turn is three clockwise quarter turns. -/
theorem ccw_eq_cw_cw_cw (m : List (List Nat)) :
    rot90ccw m = cwRot (cwRot (cwRot m)) := by
  by_cases hw : 0 < matWidth m
  · have hh : 0 < m.length := by
      cases m with
      | nil => simp [matWidth] at hw
      | cons a t => simp
    obtain ⟨_, h180⟩ := rot180_eq m hh hw
    rw [h180]
    rw [show cwRot (mkMat m.length (matWidth m)
          (fun i j => mget m (m.length - 1 - i) (matWidth m - 1 - j))) =
        mkMat (matWidth (mkMat m.length (matWidth m)
          (fun i j => mget m (m.length - 1 - i) (matWidth m - 1 - j))))
          (mkMat m.length (matWidth m)
            (fun i j => mget m (m.length - 1 - i) (matWidth m - 1 - j))).length
          (fun i j => mget (mkMat m.length (matWidth m)
            (fun i j => mget m (m.length - 1 - i) (matWidth m - 1 - j)))
            ((mkMat m.length (matWidth m)
              (fun i j => mget m (m.length - 1 - i) (matWidth m - 1 - j))).length - 1 - j) i)
        from rfl]
    rw [mkMat_width _ _ _ hh, mkMat_length]
    rw [show rot90ccw m = mkMat (matWidth m) m.length
        (fun i j => mget m j (matWidth m - 1 - i)) from rfl]
    apply mkMat_congr
    intro i hi j hj
    rw [mget_mkMat _ _ _ _ _ (by omega) hi]
    congr 1
    omega
  · have hw0 : matWidth m = 0 := by omega
    obtain ⟨e1, e2⟩ := rot_zero_width m hw0
    rw [e1, e2, cwRot_nil, cwRot_nil]

/-! ### Helper lemmas: stamping -/

/-- `set_cell` changes no field except `cells`. -/
theorem Grid.set_cell_fields (g : Grid) (a b : Int) (al : Bool) :
    (g.set_cell a b al).width = g.width ∧ (g.set_cell a b al).height = g.height ∧
    (g.set_cell a b al).wrap_mode = g.wrap_mode := by
  rw [Grid.set_cell]
  cases g.normCoord a b with
  | none => exact ⟨rfl, rfl, rfl⟩
  | some p =>
    cases p with
    | mk yy xx => exact ⟨rfl, rfl, rfl⟩

/-- Coordinate normalisation depends only on the dimensions and wrap mode. -/
theorem Grid.normCoord_congr (g1 g2 : Grid) (hw : g1.width = g2.width)
    (hh : g1.height = g2.height) (hm : g1.wrap_mode = g2.wrap_mode) (x y : Int) :
    g1.normCoord x y = g2.normCoord x y := by
  rw [Grid.normCoord, Grid.normCoord, hw, hh, hm]

/-- `set_cell(..., True)` never kills a live cell. -/
theorem Grid.set_cell_true_mono (g : Grid) (a b : Int) (yy xx : Nat)
    (h : g.cells yy xx ≠ 0) : (g.set_cell a b true).cells yy xx ≠ 0 := by
  rw [Grid.set_cell]
  cases g.normCoord a b with
  | none => exact h
  | some p =>
    cases p with
    | mk p q =>
      simp only [updateCell]
      by_cases hc : yy = p ∧ xx = q
      · rw [if_pos hc]
        simp
      · rw [if_neg hc]
        exact h

/-- A cell changed by `set_cell` is the normalised target cell. -/
theorem Grid.set_cell_true_change (g : Grid) (a b : Int) (yy xx : Nat)
    (h : (g.set_cell a b true).cells yy xx ≠ g.cells yy xx) :
    g.normCoord a b = some (yy, xx) := by
  rw [Grid.set_cell] at h
  cases hn : g.normCoord a b with
  | none =>
    rw [hn] at h
    exact absurd rfl h
  | some p =>
    cases p with
    | mk p q =>
      rw [hn] at h
      simp only [updateCell] at h
      by_cases hc : yy = p ∧ xx = q
      · obtain ⟨h1, h2⟩ := hc
        rw [h1, h2]
      · rw [if_neg hc] at h
        exact absurd rfl h

/-- Invariants of the inner (per-row) stamping loop of `load_pattern`:
fields other than `cells` are untouched, live cells stay live, and any
changed cell is the normalised target of a live pattern cell of the row. -/
theorem stampRow (D : List (List Nat)) (x y : Int) (py : Nat) (pxs : List Nat) :
    ∀ g : Grid,
      ((pxs.foldl (fun gacc2 px =>
          if mget D py px ≠ 0 then gacc2.set_cell (x + px) (y + py) true
          else gacc2) g).width = g.width ∧
       (pxs.foldl (fun gacc2 px =>
          if mget D py px ≠ 0 then gacc2.set_cell (x + px) (y + py) true
          else gacc2) g).height = g.height ∧
       (pxs.foldl (fun gacc2 px =>
          if mget D py px ≠ 0 then gacc2.set_cell (x + px) (y + py) true
          else gacc2) g).wrap_mode = g.wrap_mode) ∧
      (∀ yy xx : Nat, g.cells yy xx ≠ 0 →
        (pxs.foldl (fun gacc2 px =>
          if mget D py px ≠ 0 then gacc2.set_cell (x + px) (y + py) true
          else gacc2) g).cells yy xx ≠ 0) ∧
      (∀ yy xx : Nat,
        (pxs.foldl (fun gacc2 px =>
          if mget D py px ≠ 0 then gacc2.set_cell (x + px) (y + py) true
          else gacc2) g).cells yy xx ≠ g.cells yy xx →
        ∃ px ∈ pxs, mget D py px ≠ 0 ∧ g.normCoord (x + px) (y + py) = some (yy, xx)) := by
  induction pxs with
  | nil =>
    intro g
    exact ⟨⟨rfl, rfl, rfl⟩, fun _ _ h => h, fun yy xx h => absurd rfl h⟩
  | cons px rest ih =>
    intro g
    simp only [List.foldl_cons]
    by_cases hlive : mget D py px ≠ 0
    · rw [if_pos hlive]
      obtain ⟨⟨cw, ch, cm⟩, cmono, cloc⟩ := ih (g.set_cell (x + px) (y + py) true)
      obtain ⟨sw, sh, sm⟩ := Grid.set_cell_fields g (x + px) (y + py) true
      refine ⟨⟨by rw [cw, sw], by rw [ch, sh], by rw [cm, sm]⟩, ?_, ?_⟩
      · intro yy xx h0
        exact cmono yy xx (Grid.set_cell_true_mono g _ _ yy xx h0)
      · intro yy xx hch
        by_cases h2 : (rest.foldl (fun gacc2 px =>
            if mget D py px ≠ 0 then gacc2.set_cell (x + px) (y + py) true
            else gacc2) (g.set_cell (x + px) (y + py) true)).cells yy xx =
            (g.set_cell (x + px) (y + py) true).cells yy xx
        · have h3 : (g.set_cell (x + px) (y + py) true).cells yy xx ≠ g.cells yy xx := by
            rw [← h2]
            exact hch
          exact ⟨px, by simp, hlive, Grid.set_cell_true_change g _ _ yy xx h3⟩
        · obtain ⟨px2, hmem, hlive2, hnorm⟩ := cloc yy xx h2
          refine ⟨px2, by simp [hmem], hlive2, ?_⟩
          rw [← hnorm]
          exact (Grid.normCoord_congr _ _ sw sh sm _ _).symm
    · rw [if_neg hlive]
      obtain ⟨hf, hmono, hloc⟩ := ih g
      refine ⟨hf, hmono, ?_⟩
      intro yy xx h
      obtain ⟨px2, hmem, hlive2, hnorm⟩ := hloc yy xx h
      exact ⟨px2, by simp [hmem], hlive2, hnorm⟩

/-- Invariants of the full row-by-row stamping loop of `load_pattern`. -/
theorem stampRows (D : List (List Nat)) (x y : Int) (pys : List Nat) :
    ∀ g : Grid,
      (∀ yy xx : Nat, g.cells yy xx ≠ 0 →
        (pys.foldl (fun gacc py => (List.range (matWidth D)).foldl (fun gacc2 px =>
          if mget D py px ≠ 0 then gacc2.set_cell (x + px) (y + py) true
          else gacc2) gacc) g).cells yy xx ≠ 0) ∧
      (∀ yy xx : Nat,
        (pys.foldl (fun gacc py => (List.range (matWidth D)).foldl (fun gacc2 px =>
          if mget D py px ≠ 0 then gacc2.set_cell (x + px) (y + py) true
          else gacc2) gacc) g).cells yy xx ≠ g.cells yy xx →
        ∃ py px : Nat, mget D py px ≠ 0 ∧
          g.normCoord (x + px) (y + py) = some (yy, xx)) := by
  induction pys with
  | nil =>
    intro g
    exact ⟨fun _ _ h => h, fun yy xx h => absurd rfl h⟩
  | cons py rest ih =>
    intro g
    simp only [List.foldl_cons]
    obtain ⟨⟨rw1, rh1, rm1⟩, rmono, rloc⟩ :=
      stampRow D x y py (List.range (matWidth D)) g
    obtain ⟨imono, iloc⟩ := ih ((List.range (matWidth D)).foldl (fun gacc2 px =>
      if mget D py px ≠ 0 then gacc2.set_cell (x + px) (y + py) true else gacc2) g)
    refine ⟨?_, ?_⟩
    · intro yy xx h0
      exact imono yy xx (rmono yy xx h0)
    · intro yy xx hch
      by_cases h2 : (rest.foldl (fun gacc py => (List.range (matWidth D)).foldl
          (fun gacc2 px => if mget D py px ≠ 0 then gacc2.set_cell (x + px) (y + py) true
          else gacc2) gacc) ((List.range (matWidth D)).foldl (fun gacc2 px =>
          if mget D py px ≠ 0 then gacc2.set_cell (x + px) (y + py) true
          else gacc2) g)).cells yy xx =
          ((List.range (matWidth D)).foldl (fun gacc2 px =>
          if mget D py px ≠ 0 then gacc2.set_cell (x + px) (y + py) true
          else gacc2) g).cells yy xx
      · have h3 := h2.symm ▸ hch
        obtain ⟨px2, _, hlive2, hnorm⟩ := rloc yy xx (by rw [← h2]; exact hch)
        exact ⟨py, px2, hlive2, hnorm⟩
      · obtain ⟨py2, px2, hlive2, hnorm⟩ := iloc yy xx h2
        refine ⟨py2, px2, hlive2, ?_⟩
        rw [← hnorm]
        exact (Grid.normCoord_congr _ _ rw1 rh1 rm1 _ _).symm

/-! ### Claim C7 -/

/-- C7: `load_pattern` is a union/stamp operation — for every grid,
pattern, position and rotation in {0, 90, 180, 270}, every cell alive
before is still alive after, and the only cells that can change are those
covered, after clockwise rotation (`cwRot` applied `rotation/90` times)
and per-cell coordinate normalisation (`normCoord`, the rule shared with
`set_cell`), by a live cell of the pattern; cells the pattern marks dead
are never cleared. -/
theorem C7_load_pattern_union (g : Grid) (pattern : List (List Nat)) (x y : Int)
    (rotation : Int)
    (hrot : rotation = 0 ∨ rotation = 90 ∨ rotation = 180 ∨ rotation = 270) :
    (∀ yy xx : Nat, g.cells yy xx ≠ 0 →
      (g.load_pattern pattern x y rotation).cells yy xx ≠ 0) ∧
    (∀ yy xx : Nat,
      (g.load_pattern pattern x y rotation).cells yy xx ≠ g.cells yy xx →
      ∃ py px : Nat,
        mget (cwRot^[(rotation.fdiv 90).toNat] pattern) py px ≠ 0 ∧
        g.normCoord (x + px) (y + py) = some (yy, xx)) := by
  have hD : pyRot90 pattern (-((rotation.fdiv 90) % 4)) =
      cwRot^[(rotation.fdiv 90).toNat] pattern := by
    rcases hrot with h0 | h0 | h0 | h0 <;> subst h0
    · rfl
    · exact ccw_ccw_ccw_eq_cw pattern
    · exact ccw_ccw_eq_cw_cw pattern
    · exact ccw_eq_cw_cw_cw pattern
  obtain ⟨kmono, kloc⟩ :=
    stampRows (cwRot^[(rotation.fdiv 90).toNat] pattern) x y
      (List.range ((cwRot^[(rotation.fdiv 90).toNat] pattern)).length) g
  constructor
  · intro yy xx h0
    simp only [Grid.load_pattern]
    rw [hD]
    exact kmono yy xx h0
  · intro yy xx hch
    simp only [Grid.load_pattern] at hch
    rw [hD] at hch
    exact kloc yy xx hch

/-- Witness for C7 at a concrete input: stamping the 90°-rotated glider
onto the blinker grid keeps the blinker's centre alive, and the changed
cell `(3, 0)` is covered by a live cell of the rotated glider. -/
theorem C7_witness :
    ((90 : Int) = 0 ∨ (90 : Int) = 90 ∨ (90 : Int) = 180 ∨ (90 : Int) = 270) ∧
    (blinkerGrid.cells 1 1 ≠ 0 →
      (blinkerGrid.load_pattern [[0, 1, 0], [0, 0, 1], [1, 1, 1]] 2 0 90).cells 1 1 ≠ 0) ∧
    ((blinkerGrid.load_pattern [[0, 1, 0], [0, 0, 1], [1, 1, 1]] 2 0 90).cells 0 3 ≠
        blinkerGrid.cells 0 3 →
      ∃ py px : Nat,
        mget (cwRot^[((90 : Int).fdiv 90).toNat] [[0, 1, 0], [0, 0, 1], [1, 1, 1]]) py px ≠ 0 ∧
        blinkerGrid.normCoord (2 + px) (0 + py) = some (0, 3)) :=
  ⟨Or.inr (Or.inl rfl),
   (C7_load_pattern_union blinkerGrid [[0, 1, 0], [0, 0, 1], [1, 1, 1]] 2 0 90
      (Or.inr (Or.inl rfl))).1 1 1,
   (C7_load_pattern_union blinkerGrid [[0, 1, 0], [0, 0, 1], [1, 1, 1]] 2 0 90
      (Or.inr (Or.inl rfl))).2 0 3⟩

/-! ### Claim C9 -/

/-- The `#C`-word-wrapping loop keeps lines within 70 characters as long
as the running line starts within 70 characters and every word has at
most 67 characters. -/
theorem descGo_le_70 (words : List (List Char)) :
    ∀ current : List Char, current.length ≤ 70 →
      (∀ wrd ∈ words, wrd.length ≤ 67) →
      ∀ l ∈ descGo current words, l.length ≤ 70 := by
  induction words with
  | nil =>
    intro current hcur _ l hl
    rw [descGo] at hl
    split at hl
    · rw [List.mem_singleton] at hl
      rw [hl]
      exact hcur
    · exact absurd hl (List.not_mem_nil l)
  | cons wrd rest ih =>
    intro current hcur hws l hl
    have hw : wrd.length ≤ 67 := hws wrd (by simp)
    have hrest : ∀ w2 ∈ rest, w2.length ≤ 67 := fun w2 hm => hws w2 (by simp [hm])
    rw [descGo] at hl
    split at hl
    · rcases List.mem_cons.mp hl with h1 | h2
      · rw [h1]
        exact hcur
      · exact ih ('#' :: 'C' :: ' ' :: wrd) (by simp; omega) hrest l h2
    · exact ih (current ++ ' ' :: wrd) (by simp; omega) hrest l hl

/-- The 70-character hard wrap emits only lines of at most 70 characters
when started from a running line shorter than 70. -/
theorem wrapChars_le_70 (s : List Char) :
    ∀ cur : List Char, cur.length < 70 → ∀ l ∈ wrapChars cur s, l.length ≤ 70 := by
  induction s with
  | nil =>
    intro cur hcur l hl
    rw [wrapChars] at hl
    split at hl
    · exact absurd hl (List.not_mem_nil l)
    · rw [List.mem_singleton] at hl
      rw [hl]
      omega
  | cons c rest ih =>
    intro cur hcur l hl
    rw [wrapChars] at hl
    by_cases hc : (cur ++ [c]).length ≥ 70
    · rw [if_pos hc] at hl
      rcases List.mem_cons.mp hl with h1 | h2
      · rw [h1]
        simp
        omega
      · exact ih [] (by simp) l h2
    · rw [if_neg hc] at hl
      refine ih (cur ++ [c]) ?_ l hl
      omega

/-- C9 counterexample: the claim says every output line of `to_rle` is at
most 70 characters, but a description consisting of a single 68-character
word yields a `#C` line of 71 characters. -/
theorem C9_counterexample :
    ((splitOnChar '\n'
        (to_rle [[1]] [] [] (List.replicate 68 'a'))).any
      (fun l => decide (70 < l.length))) = true := by decide

/-- C9 (amended): every line of the encoded body (terminated by `!`) is
hard-wrapped to at most 70 characters regardless of token boundaries, and
every `#C` description line is at most 70 characters provided each
whitespace-delimited word of the description is at most 67 characters
(longer words overflow the line, since splitting happens only at
whitespace boundaries). -/
theorem C9_wrap_bounds (pattern : List (List Nat)) (desc : List Char)
    (hwords : ∀ wrd ∈ pyWords desc, wrd.length ≤ 67) :
    (∀ l ∈ wrapDescription desc, l.length ≤ 70) ∧
    (∀ l ∈ wrapChars [] (rleBody pattern), l.length ≤ 70) :=
  ⟨descGo_le_70 (pyWords desc) ('#' :: 'C' :: []) (by simp) hwords,
   wrapChars_le_70 (rleBody pattern) [] (by simp)⟩

/-- Witness for C9 at a concrete input: the two-character description
word list satisfies the word-length bound, and both wrapping bounds hold
for the 1×1 live pattern. -/
theorem C9_witness :
    (∀ wrd ∈ pyWords ('h' :: 'i' :: []), wrd.length ≤ 67) ∧
    (∀ l ∈ wrapDescription ('h' :: 'i' :: []), l.length ≤ 70) ∧
    (∀ l ∈ wrapChars [] (rleBody [[1]]), l.length ≤ 70) :=
  ⟨by decide, (C9_wrap_bounds [[1]] ('h' :: 'i' :: []) (by decide)).1,
   (C9_wrap_bounds [[1]] ('h' :: 'i' :: []) (by decide)).2⟩

/-! ### Helper lemmas: all-dead parses -/

/-- A range-map with constant values is a `replicate`. -/
theorem range_map_eq_replicate {α : Type} (n : Nat) (f : Nat → α) (c : α)
    (h : ∀ i < n, f i = c) : (List.range n).map f = List.replicate n c := by
  rw [List.eq_replicate]
  constructor
  · simp
  · intro b hb
    obtain ⟨i, hi, rfl⟩ := List.mem_map.mp hb
    exact h i (List.mem_range.mp hi)

/-- A map with constant values is a `replicate`. -/
theorem map_eq_replicate {α β : Type} (l : List α) (f : α → β) (c : β)
    (h : ∀ a ∈ l, f a = c) : l.map f = List.replicate l.length c := by
  rw [List.eq_replicate]
  constructor
  · simp
  · intro b hb
    obtain ⟨a, ha, rfl⟩ := List.mem_map.mp hb
    exact h a ha

/-- `any` over a replicated falsy element is false. -/
theorem any_replicate_false {α : Type} (n : Nat) (a : α) (p : α → Bool)
    (h : p a = false) : (List.replicate n a).any p = false := by
  induction n with
  | zero => rfl
  | succ k ih => simp [List.replicate_succ, ih, h]

/-- A `getD` value is either a member of the list or the default. -/
theorem getD_mem_or {α : Type} (l : List α) (n : Nat) (d : α) :
    l.getD n d ∈ l ∨ l.getD n d = d := by
  by_cases h : n < l.length
  · left
    rw [List.getD_eq_getElem _ _ h]
    exact List.getElem_mem h
  · right
    exact List.getD_eq_default _ _ (by omega)

/-- `rleTrim` leaves an all-dead canvas unchanged. -/
theorem rleTrim_replicate_zero (H W : Nat) :
    rleTrim (List.replicate H (List.replicate W 0)) =
      List.replicate H (List.replicate W 0) := by
  rw [rleTrim]
  have hrows : (List.replicate H (List.replicate W (0 : Nat))).map
      (fun row => row.any (fun c => c != 0)) = List.replicate H false := by
    rw [List.map_replicate]
    congr 1
    exact any_replicate_false W 0 _ rfl
  simp only [hrows]
  rw [if_neg ?_]
  rw [Bool.and_eq_true]
  intro hcon
  rw [any_replicate_false H false id rfl] at hcon
  exact Bool.false_ne_true hcon.1

/-! ### Claim C3 -/

/-- C3 counterexample: the claim says an RLE input with zero live cells
parses to the 1×1 dead-cell sentinel, but the zero-live input
`"x = 3, y = 3, rule = B3/S23\n!"` parses to the full 3×3 all-dead
canvas, which is not `[[0]]`. -/
theorem C3_counterexample :
    (parse_rle (("x = 3, y = 3, rule = B3/S23\n!").data)).1 =
      [[0, 0, 0], [0, 0, 0], [0, 0, 0]] ∧
    ([[0, 0, 0], [0, 0, 0], [0, 0, 0]] : List (List Nat)) ≠ [[0]] := by
  constructor
  · decide
  · decide

/-- C3 (amended): both parsers are total (the embedding evaluates on every
input), and for zero-live-cell inputs: `parse_rle` returns the all-dead
working canvas of the header-declared (or 100×100 fallback) size — the
1×1 sentinel only when the header declares 1×1; `parse_cells` returns the
1×1 dead-cell sentinel exactly when no pattern lines exist, and otherwise
an all-dead `lines × max-width` matrix. -/
theorem C3_zero_live_results (content : List Char) :
    ((∀ yy < (rleDims content).2, ∀ xx < (rleDims content).1,
        rleCanvas content yy xx = 0) →
      (parse_rle content).1 =
        List.replicate (rleDims content).2 (List.replicate (rleDims content).1 0)) ∧
    (cellsPatternLines content = [] → (parse_cells content).1 = [[0]]) ∧
    (cellsPatternLines content ≠ [] →
      (∀ line ∈ cellsPatternLines content, ∀ c ∈ line, ¬(c = 'O' ∨ c = '*')) →
      (parse_cells content).1 =
        List.replicate (cellsPatternLines content).length
          (List.replicate (cellsWidth content) 0)) := by
  refine ⟨?_, ?_, ?_⟩
  · intro hdead
    have hmat : rleCanvasMatrix content =
        List.replicate (rleDims content).2 (List.replicate (rleDims content).1 0) := by
      rw [rleCanvasMatrix]
      apply range_map_eq_replicate
      intro yy hyy
      apply range_map_eq_replicate
      intro xx hxx
      exact hdead yy hyy xx hxx
    rw [parse_rle]
    simp only [hmat]
    exact rleTrim_replicate_zero _ _
  · intro hempty
    rw [cellsPatternLines] at hempty
    simp only [parse_cells]
    rw [hempty]
    rfl
  · intro hne hdead
    rw [cellsPatternLines] at hne hdead
    simp only [parse_cells]
    rw [if_neg (by simp only [List.isEmpty_iff]; exact hne)]
    rw [cellsWidth, cellsPatternLines]
    apply map_eq_replicate
    intro line hline
    apply range_map_eq_replicate
    intro xx _
    rw [if_neg ?_]
    rcases getD_mem_or line xx ' ' with hm | hd
    · exact hdead line hline _ hm
    · rw [hd]
      decide

/-- Witness for C3 at concrete inputs: a zero-live RLE input with a 2×2
header parses to the 2×2 all-dead canvas; a `.cells` input with only
comments parses to the sentinel; a `.cells` input with dead pattern lines
parses to the all-dead matrix of the pattern-lines size. -/
theorem C3_witness :
    (∀ yy < (rleDims (("x = 2, y = 2\n!").data)).2,
      ∀ xx < (rleDims (("x = 2, y = 2\n!").data)).1,
        rleCanvas (("x = 2, y = 2\n!").data) yy xx = 0) ∧
    (parse_rle (("x = 2, y = 2\n!").data)).1 =
      List.replicate (rleDims (("x = 2, y = 2\n!").data)).2
        (List.replicate (rleDims (("x = 2, y = 2\n!").data)).1 0) ∧
    cellsPatternLines (("!just a comment").data) = [] ∧
    (parse_cells (("!just a comment").data)).1 = [[0]] ∧
    cellsPatternLines (("..\n.").data) ≠ [] ∧
    (parse_cells (("..\n.").data)).1 =
      List.replicate (cellsPatternLines (("..\n.").data)).length
        (List.replicate (cellsWidth (("..\n.").data)) 0) :=
  ⟨by decide,
   (C3_zero_live_results (("x = 2, y = 2\n!").data)).1 (by decide),
   by decide,
   (C3_zero_live_results (("!just a comment").data)).2.1 (by decide),
   by decide,
   (C3_zero_live_results (("..\n.").data)).2.2 (by decide) (by decide)⟩

/-! ### Helper lemmas: list access, findIdx, slices -/

/-- `any (· ≠ 0)` in terms of indexed access. -/
theorem any_getD_iff (l : List Nat) :
    (l.any (fun c => c != 0) = true) ↔ ∃ i < l.length, l.getD i 0 ≠ 0 := by
  rw [List.any_eq_true]
  constructor
  · rintro ⟨a, ha, hne⟩
    obtain ⟨i, hi, rfl⟩ := List.mem_iff_getElem.mp ha
    refine ⟨i, hi, ?_⟩
    rw [List.getD_eq_getElem _ _ hi]
    simpa using hne
  · rintro ⟨i, hi, hne⟩
    refine ⟨l.getD i 0, ?_, by simpa using hne⟩
    rw [List.getD_eq_getElem _ _ hi]
    exact List.getElem_mem hi

/-- Specification of `findIdx id` on a boolean list containing `true`:
it is in range, hits `true`, and everything before it is `false`. -/
theorem findIdx_id_spec (bs : List Bool) (h : bs.any id = true) :
    bs.findIdx id < bs.length ∧ bs.getD (bs.findIdx id) false = true ∧
    ∀ i < bs.findIdx id, bs.getD i false = false := by
  induction bs with
  | nil => simp at h
  | cons b t ih =>
    cases hb : b with
    | true =>
      refine ⟨by simp [List.findIdx_cons, hb], by simp [List.findIdx_cons, hb], ?_⟩
      intro i hi
      simp [List.findIdx_cons, hb] at hi
    | false =>
      have ht : t.any id = true := by
        rw [hb] at h
        simpa using h
      obtain ⟨ih1, ih2, ih3⟩ := ih ht
      have hfi : (false :: t).findIdx id = t.findIdx id + 1 := by
        simp [List.findIdx_cons]
      refine ⟨by rw [hfi]; simp only [List.length_cons]; omega, ?_, ?_⟩
      · rw [hfi]
        simpa using ih2
      · intro i hi
        rw [hfi] at hi
        cases i with
        | zero => simp
        | succ i2 =>
          have : i2 < t.findIdx id := by omega
          simpa using ih3 i2 this

/-- `getD` of a reversed list. -/
theorem getD_reverse {α : Type} (l : List α) (i : Nat) (hi : i < l.length) (d : α) :
    l.reverse.getD i d = l.getD (l.length - 1 - i) d := by
  rw [List.getD_eq_getElem _ _ (by simpa using hi),
      List.getD_eq_getElem _ _ (by omega)]
  rw [List.getElem_reverse]

/-- `getD` of a `drop`-then-`take` slice. -/
theorem getD_slice {α : Type} (l : List α) (s n i : Nat) (d : α) (hi : i < n)
    (hin : s + i < l.length) :
    ((l.drop s).take n).getD i d = l.getD (s + i) d := by
  rw [List.getD_eq_getElem _ _ (by simp; omega), List.getD_eq_getElem _ _ hin]
  rw [List.getElem_take, List.getElem_drop]

/-- `getD` of a mapped list, within bounds. -/
theorem getD_map_lt {α β : Type} (l : List α) (f : α → β) (i : Nat)
    (hi : i < l.length) (d : β) :
    (l.map f).getD i d = f l[i] := by
  rw [List.getD_eq_getElem _ _ (by simpa using hi)]
  rw [List.getElem_map]

/-- Length of a `drop`-then-`take` slice. -/
theorem length_slice {α : Type} (l : List α) (s n : Nat) (h : s + n ≤ l.length) :
    ((l.drop s).take n).length = n := by
  simp
  omega

/-- `getD` of a mapped list, within bounds, in terms of `getD` of the
original list. -/
theorem getD_map_getD {α β : Type} (l : List α) (f : α → β) (i : Nat)
    (hi : i < l.length) (d : β) (d2 : α) :
    (l.map f).getD i d = f (l.getD i d2) := by
  rw [List.getD_eq_getElem _ _ (by simpa using hi), List.getD_eq_getElem _ _ hi]
  rw [List.getElem_map]

/-- In-range `getD` values are members. -/
theorem getD_mem_of_lt {α : Type} (l : List α) (i : Nat) (hi : i < l.length) (d : α) :
    l.getD i d ∈ l := by
  rw [List.getD_eq_getElem _ _ hi]
  exact List.getElem_mem hi

/-- `matWidth` as an indexed access. -/
theorem matWidth_eq_getD (m : List (List Nat)) : matWidth m = (m.getD 0 []).length := by
  cases m <;> rfl

/-! ### Helper lemmas: the clamped region of `extract_region` -/

/-- For non-negative right/bottom request edges, the clamped slice of
`extract_region` is the rectangle `[A, B) × [C, D)` of the grid, and its
live cells are exactly the live cells of the requested region. -/
theorem clampedRegion_spec (cells : List (List Nat)) (x y width height : Int)
    (hrect : matRect cells) (hxw : 0 ≤ x + width) (hyh : 0 ≤ y + height) :
    ∃ A B C D : Nat,
      B ≤ cells.length ∧ D ≤ matWidth cells ∧
      (clampedRegion cells x y width height).length = B - A ∧
      (∀ p < B - A, ((clampedRegion cells x y width height).getD p []).length = D - C) ∧
      (∀ p q : Nat, p < B - A → q < D - C →
        mget (clampedRegion cells x y width height) p q = mget cells (A + p) (C + q)) ∧
      (∀ i j : Nat, liveInReq cells x y width height i j ↔
        (A ≤ i ∧ i < B ∧ C ≤ j ∧ j < D ∧ mget cells i j ≠ 0)) := by
  refine ⟨pySliceIdx cells.length (max 0 y),
          pySliceIdx cells.length (min ((cells.length : Int)) (y + height)),
          pySliceIdx (matWidth cells) (max 0 x),
          pySliceIdx (matWidth cells) (min ((matWidth cells : Int)) (x + width)),
          ?_, ?_, ?_, ?_, ?_, ?_⟩
  case _ =>
    rw [pySliceIdx, if_neg (by omega)]
    omega
  case _ =>
    rw [pySliceIdx, if_neg (by omega)]
    omega
  case _ =>
    have hble : pySliceIdx cells.length (min ((cells.length : Int)) (y + height)) ≤
        cells.length := by
      rw [pySliceIdx, if_neg (by omega)]
      omega
    rw [clampedRegion, pySlice2D, pySliceList]
    simp only [List.length_map, List.length_take, List.length_drop]
    omega
  case _ =>
    intro p hp
    have hble : pySliceIdx cells.length (min ((cells.length : Int)) (y + height)) ≤
        cells.length := by
      rw [pySliceIdx, if_neg (by omega)]
      omega
    have hdle : pySliceIdx (matWidth cells) (min ((matWidth cells : Int)) (x + width)) ≤
        matWidth cells := by
      rw [pySliceIdx, if_neg (by omega)]
      omega
    rw [clampedRegion, pySlice2D]
    have hplen : p < (pySliceList cells (max 0 y)
        (min ((cells.length : Int)) (y + height))).length := by
      rw [pySliceList]
      simp only [List.length_take, List.length_drop]
      omega
    rw [getD_map_getD _ _ p hplen [] []]
    have hmem : (pySliceList cells (max 0 y)
        (min ((cells.length : Int)) (y + height))).getD p [] ∈ cells := by
      have hin := getD_mem_of_lt _ _ hplen ([] : List Nat)
      rw [pySliceList] at hin
      exact List.mem_of_mem_drop (List.mem_of_mem_take hin)
    rw [pySliceList]
    simp only [List.length_take, List.length_drop]
    rw [hrect _ hmem]
    omega
  case _ =>
    intro p q hp hq
    have hble : pySliceIdx cells.length (min ((cells.length : Int)) (y + height)) ≤
        cells.length := by
      rw [pySliceIdx, if_neg (by omega)]
      omega
    have hdle : pySliceIdx (matWidth cells) (min ((matWidth cells : Int)) (x + width)) ≤
        matWidth cells := by
      rw [pySliceIdx, if_neg (by omega)]
      omega
    have hplen : p < (pySliceList cells (max 0 y)
        (min ((cells.length : Int)) (y + height))).length := by
      rw [pySliceList]
      simp only [List.length_take, List.length_drop]
      omega
    rw [clampedRegion, pySlice2D, mget]
    rw [getD_map_getD _ _ p hplen [] []]
    have hrow : (pySliceList cells (max 0 y)
        (min ((cells.length : Int)) (y + height))).getD p [] =
        cells.getD (pySliceIdx cells.length (max 0 y) + p) [] := by
      rw [pySliceList]
      apply getD_slice
      · omega
      · omega
    have hmem : (pySliceList cells (max 0 y)
        (min ((cells.length : Int)) (y + height))).getD p [] ∈ cells := by
      have hin := getD_mem_of_lt _ _ hplen ([] : List Nat)
      rw [pySliceList] at hin
      exact List.mem_of_mem_drop (List.mem_of_mem_take hin)
    have hrl : ((pySliceList cells (max 0 y)
        (min ((cells.length : Int)) (y + height))).getD p []).length = matWidth cells :=
      hrect _ hmem
    rw [pySliceList, hrl]
    rw [getD_slice _ _ _ _ _ (by omega) (by omega)]
    rw [hrow, mget]
  case _ =>
    intro i j
    rw [liveInReq]
    have e1 : pySliceIdx cells.length (max 0 y) = min (max 0 y).toNat cells.length := by
      rw [pySliceIdx, if_neg (by omega)]
    have e2 : pySliceIdx cells.length (min ((cells.length : Int)) (y + height)) =
        (min ((cells.length : Int)) (y + height)).toNat := by
      rw [pySliceIdx, if_neg (by omega)]
      omega
    have e3 : pySliceIdx (matWidth cells) (max 0 x) =
        min (max 0 x).toNat (matWidth cells) := by
      rw [pySliceIdx, if_neg (by omega)]
    have e4 : pySliceIdx (matWidth cells) (min ((matWidth cells : Int)) (x + width)) =
        (min ((matWidth cells : Int)) (x + width)).toNat := by
      rw [pySliceIdx, if_neg (by omega)]
      omega
    rw [e1, e2, e3, e4]
    constructor
    · rintro ⟨h1, h2, h3, h4, h5, h6, h7⟩
      refine ⟨by omega, by omega, by omega, by omega, h1⟩
    · rintro ⟨h1, h2, h3, h4, h5⟩
      refine ⟨h5, by omega, by omega, by omega, by omega, by omega, by omega⟩

/-- `getD` over `List.range`. -/
theorem getD_range (n i : Nat) (hi : i < n) (d : Nat) :
    (List.range n).getD i d = i := by
  rw [List.getD_eq_getElem _ _ (by simpa using hi)]
  exact List.getElem_range i _

/-- An in-range true entry makes `any id` true. -/
theorem any_id_of_getD (bs : List Bool) (p : Nat) (hp : p < bs.length)
    (h : bs.getD p false = true) : bs.any id = true := by
  rw [List.any_eq_true]
  refine ⟨bs.getD p false, getD_mem_of_lt _ _ hp _, by simpa using h⟩

/-- Column-wise `any (·.getD q ≠ 0)` in terms of `mget`. -/
theorem any_row_getD_iff (R : List (List Nat)) (q : Nat) :
    (R.any (fun row => row.getD q 0 != 0)) = true ↔ ∃ p < R.length, mget R p q ≠ 0 := by
  rw [List.any_eq_true]
  constructor
  · rintro ⟨row, hrow, hne⟩
    obtain ⟨p, hp, rfl⟩ := List.mem_iff_getElem.mp hrow
    refine ⟨p, hp, ?_⟩
    rw [mget, List.getD_eq_getElem _ _ hp]
    simpa using hne
  · rintro ⟨p, hp, hne⟩
    refine ⟨R.getD p [], getD_mem_of_lt _ _ hp _, ?_⟩
    rw [mget] at hne
    simpa using hne

/-- When the requested region holds no live cell, `extract_region`
returns the sentinel. -/
theorem extract_region_dead (cells : List (List Nat)) (x y width height : Int)
    (hrect : matRect cells) (hxw : 0 ≤ x + width) (hyh : 0 ≤ y + height)
    (hno : ∀ i < cells.length, ∀ j < matWidth cells,
      ¬ liveInReq cells x y width height i j) :
    extract_region cells x y width height = [[0]] := by
  obtain ⟨A, B, C, D, hBle, hDle, hlen, hrowlen, hmget, hiff⟩ :=
    clampedRegion_spec cells x y width height hrect hxw hyh
  have hrowsfalse : ((clampedRegion cells x y width height).map
      (fun row => row.any (fun c => c != 0))).any id = false := by
    rw [Bool.eq_false_iff]
    intro hany
    rw [List.any_eq_true] at hany
    obtain ⟨b, hb, hbtrue⟩ := hany
    obtain ⟨p, hp, rfl⟩ := List.mem_iff_getElem.mp hb
    rw [List.length_map] at hp
    rw [List.getElem_map] at hbtrue
    have hrowp : (clampedRegion cells x y width height)[p] =
        (clampedRegion cells x y width height).getD p [] := by
      rw [List.getD_eq_getElem _ _ hp]
    rw [hrowp] at hbtrue
    simp only [id_eq] at hbtrue
    rw [any_getD_iff] at hbtrue
    obtain ⟨q, hq, hne⟩ := hbtrue
    rw [hrowlen p (by omega)] at hq
    have hm : mget (clampedRegion cells x y width height) p q ≠ 0 := hne
    rw [hmget p q (by omega) hq] at hm
    have hlive : liveInReq cells x y width height (A + p) (C + q) :=
      (hiff (A + p) (C + q)).mpr ⟨by omega, by omega, by omega, by omega, hm⟩
    exact hno (A + p) (by omega) (C + q) (by omega) hlive
  simp only [extract_region]
  rw [hrowsfalse]
  rfl

/-- When the requested region holds a live cell, `extract_region` returns
the minimal bounding box of the live cells of the requested region. -/
theorem extract_region_live_bbox (cells : List (List Nat)) (x y width height : Int)
    (hrect : matRect cells) (hxw : 0 ≤ x + width) (hyh : 0 ≤ y + height)
    (hex : ∃ i < cells.length, ∃ j < matWidth cells,
      liveInReq cells x y width height i j) :
    ∃ imin imax jmin jmax : Nat,
      (∃ j2, liveInReq cells x y width height imin j2) ∧
      (∃ j2, liveInReq cells x y width height imax j2) ∧
      (∃ i2, liveInReq cells x y width height i2 jmin) ∧
      (∃ i2, liveInReq cells x y width height i2 jmax) ∧
      (∀ i2 j2, liveInReq cells x y width height i2 j2 →
        imin ≤ i2 ∧ i2 ≤ imax ∧ jmin ≤ j2 ∧ j2 ≤ jmax) ∧
      (extract_region cells x y width height).length = imax - imin + 1 ∧
      (∀ row ∈ extract_region cells x y width height, row.length = jmax - jmin + 1) ∧
      (∀ a b : Nat, a ≤ imax - imin → b ≤ jmax - jmin →
        mget (extract_region cells x y width height) a b =
          mget cells (imin + a) (jmin + b)) := by
  obtain ⟨A, B, C, D, hBle, hDle, hlen, hrowlen, hmget, hiff⟩ :=
    clampedRegion_spec cells x y width height hrect hxw hyh
  set Rg := clampedRegion cells x y width height with hRgdef
  set rows := Rg.map (fun row => row.any (fun c => c != 0)) with hrowsdef
  set cols := (List.range (matWidth Rg)).map
    (fun j => Rg.any (fun row => row.getD j 0 != 0)) with hcolsdef
  obtain ⟨i0, hi0, j0, hj0, hlive0⟩ := hex
  have h0 := (hiff i0 j0).mp hlive0
  have hBA : 0 < B - A := by omega
  have hDC : 0 < D - C := by omega
  have hrowslen : rows.length = B - A := by
    rw [hrowsdef, List.length_map, hlen]
  have hWRg : matWidth Rg = D - C := by
    rw [matWidth_eq_getD]
    exact hrowlen 0 hBA
  have hcolslen : cols.length = D - C := by
    rw [hcolsdef, List.length_map, List.length_range, hWRg]
  have hrowsgetD : ∀ p, p < B - A →
      rows.getD p false = (Rg.getD p []).any (fun c => c != 0) := by
    intro p hp
    rw [hrowsdef]
    exact getD_map_getD Rg _ p (by omega) false []
  have hrowiff : ∀ p, p < B - A →
      ((Rg.getD p []).any (fun c => c != 0) = true ↔ ∃ q < D - C, mget Rg p q ≠ 0) := by
    intro p hp
    rw [any_getD_iff, hrowlen p hp]
    exact Iff.rfl
  have hcolsgetD : ∀ q, q < D - C →
      cols.getD q false = Rg.any (fun row => row.getD q 0 != 0) := by
    intro q hq
    rw [hcolsdef]
    rw [getD_map_getD (List.range (matWidth Rg)) _ q (by simp [hWRg]; omega) false 0]
    rw [getD_range _ _ (by rw [hWRg]; omega)]
  have hcoliff : ∀ q : Nat,
      (Rg.any (fun row => row.getD q 0 != 0) = true ↔ ∃ p < B - A, mget Rg p q ≠ 0) := by
    intro q
    rw [any_row_getD_iff, hlen]
  have hliveRg : ∀ i2 j2, liveInReq cells x y width height i2 j2 →
      A ≤ i2 ∧ i2 < B ∧ C ≤ j2 ∧ j2 < D ∧ mget Rg (i2 - A) (j2 - C) ≠ 0 := by
    intro i2 j2 hl
    obtain ⟨h1, h2, h3, h4, h5⟩ := (hiff i2 j2).mp hl
    refine ⟨h1, h2, h3, h4, ?_⟩
    rw [hmget (i2 - A) (j2 - C) (by omega) (by omega)]
    have e1 : A + (i2 - A) = i2 := by omega
    have e2 : C + (j2 - C) = j2 := by omega
    rw [e1, e2]
    exact h5
  have hRglive : ∀ p q, p < B - A → q < D - C → mget Rg p q ≠ 0 →
      liveInReq cells x y width height (A + p) (C + q) := by
    intro p q hp hq hne
    refine (hiff (A + p) (C + q)).mpr ⟨by omega, by omega, by omega, by omega, ?_⟩
    rw [← hmget p q hp hq]
    exact hne
  have hrowp_true : ∀ p q, p < B - A → q < D - C → mget Rg p q ≠ 0 →
      rows.getD p false = true := by
    intro p q hp hq hne
    rw [hrowsgetD p hp]
    exact (hrowiff p hp).mpr ⟨q, hq, hne⟩
  have hcolq_true : ∀ p q, p < B - A → q < D - C → mget Rg p q ≠ 0 →
      cols.getD q false = true := by
    intro p q hp hq hne
    rw [hcolsgetD q hq]
    exact (hcoliff q).mpr ⟨p, hp, hne⟩
  obtain ⟨hA1, hA2, hA3, hA4, hA5⟩ := hliveRg i0 j0 hlive0
  have hrowsany : rows.any id = true :=
    any_id_of_getD rows (i0 - A) (by omega) (hrowp_true _ _ (by omega) (by omega) hA5)
  have hcolsany : cols.any id = true :=
    any_id_of_getD cols (j0 - C) (by omega) (hcolq_true _ _ (by omega) (by omega) hA5)
  obtain ⟨hy1, hy2, hy3⟩ := findIdx_id_spec rows hrowsany
  obtain ⟨hr1, hr2, hr3⟩ := findIdx_id_spec rows.reverse (by
    rw [List.any_reverse]
    exact hrowsany)
  obtain ⟨hx1, hx2, hx3⟩ := findIdx_id_spec cols hcolsany
  obtain ⟨hc1, hc2, hc3⟩ := findIdx_id_spec cols.reverse (by
    rw [List.any_reverse]
    exact hcolsany)
  rw [List.length_reverse] at hr1 hc1
  have hymaxT : rows.getD (rows.length - 1 - rows.reverse.findIdx id) false = true := by
    have hm2 := hr2
    rw [getD_reverse rows _ hr1] at hm2
    exact hm2
  have hxmaxT : cols.getD (cols.length - 1 - cols.reverse.findIdx id) false = true := by
    have hm2 := hc2
    rw [getD_reverse cols _ hc1] at hm2
    exact hm2
  have hrow_after : ∀ p, rows.length - 1 - rows.reverse.findIdx id < p →
      p < rows.length → rows.getD p false = false := by
    intro p h1 h2
    have h3 := hr3 (rows.length - 1 - p) (by omega)
    rw [getD_reverse rows _ (by omega)] at h3
    have e : rows.length - 1 - (rows.length - 1 - p) = p := by omega
    rw [e] at h3
    exact h3
  have hcol_after : ∀ q, cols.length - 1 - cols.reverse.findIdx id < q →
      q < cols.length → cols.getD q false = false := by
    intro q h1 h2
    have h3 := hc3 (cols.length - 1 - q) (by omega)
    rw [getD_reverse cols _ (by omega)] at h3
    have e : cols.length - 1 - (cols.length - 1 - q) = q := by omega
    rw [e] at h3
    exact h3
  have hyminmax : rows.findIdx id ≤ rows.length - 1 - rows.reverse.findIdx id := by
    by_contra hcon
    have hfalse := hy3 (rows.length - 1 - rows.reverse.findIdx id) (by omega)
    rw [hymaxT] at hfalse
    simp at hfalse
  have hxminmax : cols.findIdx id ≤ cols.length - 1 - cols.reverse.findIdx id := by
    by_contra hcon
    have hfalse := hx3 (cols.length - 1 - cols.reverse.findIdx id) (by omega)
    rw [hxmaxT] at hfalse
    simp at hfalse
  refine ⟨A + rows.findIdx id, A + (rows.length - 1 - rows.reverse.findIdx id),
          C + cols.findIdx id, C + (cols.length - 1 - cols.reverse.findIdx id),
          ?_, ?_, ?_, ?_, ?_, ?_, ?_, ?_⟩
  · obtain ⟨q, hq, hne⟩ := (hrowiff (rows.findIdx id) (by omega)).mp (by
      rw [← hrowsgetD (rows.findIdx id) (by omega)]
      exact hy2)
    exact ⟨C + q, hRglive _ q (by omega) hq hne⟩
  · obtain ⟨q, hq, hne⟩ :=
      (hrowiff (rows.length - 1 - rows.reverse.findIdx id) (by omega)).mp (by
        rw [← hrowsgetD (rows.length - 1 - rows.reverse.findIdx id) (by omega)]
        exact hymaxT)
    exact ⟨C + q, hRglive _ q (by omega) hq hne⟩
  · obtain ⟨p, hp, hne⟩ := (hcoliff (cols.findIdx id)).mp (by
      rw [← hcolsgetD (cols.findIdx id) (by omega)]
      exact hx2)
    exact ⟨A + p, hRglive p _ hp (by omega) hne⟩
  · obtain ⟨p, hp, hne⟩ :=
      (hcoliff (cols.length - 1 - cols.reverse.findIdx id)).mp (by
        rw [← hcolsgetD (cols.length - 1 - cols.reverse.findIdx id) (by omega)]
        exact hxmaxT)
    exact ⟨A + p, hRglive p _ hp (by omega) hne⟩
  · intro i2 j2 hl
    obtain ⟨hb1, hb2, hb3, hb4, hb5⟩ := hliveRg i2 j2 hl
    have hrt := hrowp_true (i2 - A) (j2 - C) (by omega) (by omega) hb5
    have hct := hcolq_true (i2 - A) (j2 - C) (by omega) (by omega) hb5
    have hge : rows.findIdx id ≤ i2 - A := by
      by_contra hcon
      have := hy3 (i2 - A) (by omega)
      rw [hrt] at this
      simp at this
    have hle : i2 - A ≤ rows.length - 1 - rows.reverse.findIdx id := by
      by_contra hcon
      have := hrow_after (i2 - A) (by omega) (by omega)
      rw [hrt] at this
      simp at this
    have hge2 : cols.findIdx id ≤ j2 - C := by
      by_contra hcon
      have := hx3 (j2 - C) (by omega)
      rw [hct] at this
      simp at this
    have hle2 : j2 - C ≤ cols.length - 1 - cols.reverse.findIdx id := by
      by_contra hcon
      have := hcol_after (j2 - C) (by omega) (by omega)
      rw [hct] at this
      simp at this
    omega
  · simp only [extract_region, ← hRgdef, ← hrowsdef, ← hcolsdef]
    rw [hrowsany, hcolsany]
    rw [if_neg (by decide)]
    simp only [List.length_map, List.length_take, List.length_drop]
    omega
  · intro row hrow
    simp only [extract_region, ← hRgdef, ← hrowsdef, ← hcolsdef] at hrow
    rw [hrowsany, hcolsany] at hrow
    rw [if_neg (by decide)] at hrow
    obtain ⟨r, hr, rfl⟩ := List.mem_map.mp hrow
    have hmem : r ∈ Rg := List.mem_of_mem_drop (List.mem_of_mem_take hr)
    obtain ⟨p, hp, rfl⟩ := List.mem_iff_getElem.mp hmem
    have hrl : Rg[p].length = D - C := by
      have : Rg[p] = Rg.getD p [] := by
        rw [List.getD_eq_getElem _ _ hp]
      rw [this]
      exact hrowlen p (by omega)
    simp only [List.length_take, List.length_drop, hrl]
    omega
  · intro a b ha hb
    have hya : rows.findIdx id + a < B - A := by omega
    have hxb : cols.findIdx id + b < D - C := by omega
    simp only [extract_region, ← hRgdef, ← hrowsdef, ← hcolsdef]
    rw [hrowsany, hcolsany]
    rw [if_neg (by decide)]
    rw [mget]
    rw [getD_map_getD _ _ a (by
      simp only [List.length_take, List.length_drop]
      omega) [] []]
    rw [getD_slice Rg _ _ a _ (by omega) (by omega)]
    rw [getD_slice _ _ _ b _ (by omega) (by
      rw [hrowlen _ (by omega)]
      omega)]
    have hfin : (Rg.getD (rows.findIdx id + a) []).getD (cols.findIdx id + b) 0 =
        mget Rg (rows.findIdx id + a) (cols.findIdx id + b) := rfl
    rw [hfin, hmget _ _ (by omega) (by omega)]
    have e1 : A + (rows.findIdx id + a) = A + rows.findIdx id + a := by omega
    have e2 : C + (cols.findIdx id + b) = C + cols.findIdx id + b := by omega
    rw [e1, e2]

/-! ### Claim C8 -/

/-- C8 counterexample: with `x = 0, y = -10, width = 1, height = 3` on an
8×1 all-live grid the requested region misses the grid entirely (no live
cell lies in it), so the claim demands the `1×1` dead sentinel; but the
code's clamp produces the Python slice `[0:-7]`, which wraps around to
row 0, and `extract_region` returns `[[1]]`. -/
theorem C8_counterexample :
    (∀ i < (List.replicate 8 ([1] : List Nat)).length,
      ∀ j < matWidth (List.replicate 8 ([1] : List Nat)),
        ¬ liveInReq (List.replicate 8 [1]) 0 (-10) 1 3 i j) ∧
    extract_region (List.replicate 8 [1]) 0 (-10) 1 3 = [[1]] ∧
    ([[1]] : List (List Nat)) ≠ [[0]] :=
  ⟨by decide, by decide, by decide⟩

/-- C8 (amended): for every rectangular cell array and request with
non-negative right and bottom edges (`0 ≤ x + width`, `0 ≤ y + height` —
otherwise Python's negative slice ends wrap around), `extract_region`
returns the minimal bounding box of the live cells within the requested
(clamped) region: never an empty array; the `1×1` dead sentinel when the
region holds no live cell; and otherwise a matrix whose first and last
row and column each contain a live cell, whose entries are the region's
cells at shifted coordinates, and which contains every live cell of the
region. -/
theorem C8_extract_region_bbox (cells : List (List Nat)) (x y width height : Int)
    (hrect : matRect cells) (hxw : 0 ≤ x + width) (hyh : 0 ≤ y + height) :
    extract_region cells x y width height ≠ [] ∧
    ((∀ i < cells.length, ∀ j < matWidth cells,
        ¬ liveInReq cells x y width height i j) →
      extract_region cells x y width height = [[0]]) ∧
    ((∃ i < cells.length, ∃ j < matWidth cells,
        liveInReq cells x y width height i j) →
      ∃ imin imax jmin jmax : Nat,
        (∃ j2, liveInReq cells x y width height imin j2) ∧
        (∃ j2, liveInReq cells x y width height imax j2) ∧
        (∃ i2, liveInReq cells x y width height i2 jmin) ∧
        (∃ i2, liveInReq cells x y width height i2 jmax) ∧
        (∀ i2 j2, liveInReq cells x y width height i2 j2 →
          imin ≤ i2 ∧ i2 ≤ imax ∧ jmin ≤ j2 ∧ j2 ≤ jmax) ∧
        (extract_region cells x y width height).length = imax - imin + 1 ∧
        (∀ row ∈ extract_region cells x y width height, row.length = jmax - jmin + 1) ∧
        (∀ a b : Nat, a ≤ imax - imin → b ≤ jmax - jmin →
          mget (extract_region cells x y width height) a b =
            mget cells (imin + a) (jmin + b))) := by
  refine ⟨?_, extract_region_dead cells x y width height hrect hxw hyh,
          extract_region_live_bbox cells x y width height hrect hxw hyh⟩
  by_cases hex : ∃ i < cells.length, ∃ j < matWidth cells,
      liveInReq cells x y width height i j
  · obtain ⟨imin, imax, jmin, jmax, _, _, _, _, _, hlen2, _, _⟩ :=
      extract_region_live_bbox cells x y width height hrect hxw hyh hex
    intro hcon
    rw [hcon] at hlen2
    simp only [List.length_nil] at hlen2
    omega
  · push_neg at hex
    rw [extract_region_dead cells x y width height hrect hxw hyh hex]
    simp

/-- Witness for C8 at a concrete input: a 2×2 rectangular grid with one
live cell and an in-range request; `extract_region` returns a non-empty
result. -/
theorem C8_witness :
    matRect ([[0, 1], [0, 0]] : List (List Nat)) ∧
    (0 : Int) ≤ 0 + 2 ∧ (0 : Int) ≤ 0 + 2 ∧
    extract_region [[0, 1], [0, 0]] 0 0 2 2 ≠ [] :=
  ⟨by decide, by decide, by decide,
   (C8_extract_region_bbox [[0, 1], [0, 0]] 0 0 2 2 (by decide) (by decide) (by decide)).1⟩

/-! ### Claim C2: the RLE round trip -/
/-! ### Helper lemmas: characters and Python string primitives -/

theorem isDigit_toNat (c : Char) (h : c.isDigit = true) :
    48 ≤ c.toNat ∧ c.toNat ≤ 57 := by
  simp only [Char.isDigit, Bool.and_eq_true, decide_eq_true_eq] at h
  obtain ⟨h1, h2⟩ := h
  rw [ge_iff_le, UInt32.le_def] at h1
  rw [UInt32.le_def] at h2
  exact ⟨h1, h2⟩

theorem digit_ne (c a : Char) (h : c.isDigit = true)
    (ha : a.toNat < 48 ∨ 57 < a.toNat) : c ≠ a := by
  intro hca
  obtain ⟨h1, h2⟩ := isDigit_toNat c h
  subst hca
  omega

theorem digit_not_ws (c : Char) (h : c.isDigit = true) : isPyWs c = false := by
  have h32 : c ≠ ' ' := digit_ne c ' ' h (by left; decide)
  have h9 : c ≠ '\t' := digit_ne c '\t' h (by left; decide)
  have h10 : c ≠ '\n' := digit_ne c '\n' h (by left; decide)
  have h13 : c ≠ '\r' := digit_ne c '\r' h (by left; decide)
  have h11 : c ≠ '\x0b' := digit_ne c '\x0b' h (by left; decide)
  have h12 : c ≠ '\x0c' := digit_ne c '\x0c' h (by left; decide)
  simp [isPyWs, h32, h9, h10, h13, h11, h12]

theorem rleChar_not_ws (c : Char) (h : rleChar c = true) : isPyWs c = false := by
  simp only [rleChar, Bool.or_eq_true, beq_iff_eq] at h
  rcases h with (((h | h) | h) | h) | h
  · exact digit_not_ws c h
  all_goals subst h; decide

theorem rleChar_ne_hash (c : Char) (h : rleChar c = true) : c ≠ '#' := by
  simp only [rleChar, Bool.or_eq_true, beq_iff_eq] at h
  rcases h with (((h | h) | h) | h) | h
  · exact digit_ne c '#' h (by left; decide)
  all_goals subst h; decide

theorem rleChar_ne_x (c : Char) (h : rleChar c = true) : c ≠ 'x' := by
  simp only [rleChar, Bool.or_eq_true, beq_iff_eq] at h
  rcases h with (((h | h) | h) | h) | h
  · exact digit_ne c 'x' h (by right; decide)
  all_goals subst h; decide

theorem rleChar_ne_nl (c : Char) (h : rleChar c = true) : c ≠ '\n' := by
  intro hc
  have := rleChar_not_ws c h
  subst hc
  simp [isPyWs] at this

/-- `pyStrip` is the identity on a string whose first and last characters
are not whitespace. -/
theorem pyStrip_eq_self (l : List Char)
    (h1 : ∀ c, l.head? = some c → isPyWs c = false)
    (h2 : ∀ c, l.getLast? = some c → isPyWs c = false) : pyStrip l = l := by
  unfold pyStrip
  have hd : l.dropWhile isPyWs = l := by
    cases l with
    | nil => rfl
    | cons a t =>
      rw [List.dropWhile_cons, h1 a rfl]
      simp
  rw [hd]
  have hr : l.reverse.dropWhile isPyWs = l.reverse := by
    cases hrev : l.reverse with
    | nil => rfl
    | cons a t =>
      rw [List.dropWhile_cons]
      have hla : l.getLast? = some a := by
        rw [← List.head?_reverse, hrev]
        rfl
      rw [h2 a hla]
      simp
  rw [hr, List.reverse_reverse]

/-- `pyStrip` is the identity on a string with no whitespace at all. -/
theorem pyStrip_eq_self_all (l : List Char)
    (h : ∀ c ∈ l, isPyWs c = false) : pyStrip l = l :=
  pyStrip_eq_self l (fun c hc => h c (List.mem_of_mem_head? hc))
    (fun c hc => h c (List.mem_of_mem_getLast? hc))

theorem splitOnChar_ne_nil (sep : Char) (s : List Char) : splitOnChar sep s ≠ [] := by
  induction s with
  | nil => simp [splitOnChar]
  | cons c t ih =>
    simp only [splitOnChar]
    cases hs : splitOnChar sep t with
    | nil => exact absurd hs ih
    | cons r rs =>
      show ¬ (if c = sep then [] :: r :: rs else (c :: r) :: rs) = []
      split <;> simp

theorem splitOnChar_no_sep (sep : Char) (s : List Char) (h : sep ∉ s) :
    splitOnChar sep s = [s] := by
  induction s with
  | nil => rfl
  | cons c t ih =>
    have hc : c ≠ sep := fun hc => h (by simp [hc])
    have ht : sep ∉ t := fun ht => h (by simp [ht])
    simp only [splitOnChar, ih ht]
    rw [if_neg hc]

theorem splitOnChar_append_sep (sep : Char) (l s : List Char) (h : sep ∉ l) :
    splitOnChar sep (l ++ sep :: s) = l :: splitOnChar sep s := by
  induction l with
  | nil =>
    simp only [List.nil_append, splitOnChar]
    cases hs : splitOnChar sep s with
    | nil => exact absurd hs (splitOnChar_ne_nil sep s)
    | cons r rs => simp
  | cons c t ih =>
    have hc : c ≠ sep := fun hc => h (by simp [hc])
    have ht : sep ∉ t := fun ht => h (by simp [ht])
    have hstep : (c :: t) ++ sep :: s = c :: (t ++ sep :: s) := rfl
    rw [hstep]
    simp only [splitOnChar]
    rw [ih ht]
    show (if c = sep then [] :: t :: splitOnChar sep s else (c :: t) :: splitOnChar sep s) =
      (c :: t) :: splitOnChar sep s
    rw [if_neg hc]

/-- Splitting inverts joining as long as no line contains the separator. -/
theorem splitOnChar_joinSep (sep : Char) (ls : List (List Char)) (hne : ls ≠ [])
    (h : ∀ l ∈ ls, sep ∉ l) : splitOnChar sep (joinSep sep ls) = ls := by
  induction ls with
  | nil => exact absurd rfl hne
  | cons l rest ih =>
    cases rest with
    | nil =>
      simp only [joinSep]
      exact splitOnChar_no_sep sep l (h l (by simp))
    | cons l2 rest2 =>
      simp only [joinSep]
      rw [splitOnChar_append_sep sep l _ (h l (by simp))]
      rw [ih (by simp) (fun l' hl' => h l' (by simp [hl']))]

theorem joinSep_ne_nil (sep : Char) (ls : List (List Char)) (hne : ls ≠ [])
    (h : ∀ l ∈ ls, l ≠ []) : joinSep sep ls ≠ [] := by
  cases ls with
  | nil => exact absurd rfl hne
  | cons l rest =>
    cases rest with
    | nil => exact h l (by simp)
    | cons l2 rest2 =>
      simp only [joinSep]
      intro hx
      exact h l (by simp) (List.append_eq_nil.mp hx).1

theorem head?_joinSep (sep : Char) (l : List Char) (ls : List (List Char))
    (hl : l ≠ []) : (joinSep sep (l :: ls)).head? = l.head? := by
  cases ls with
  | nil => rfl
  | cons l2 rest =>
    simp only [joinSep]
    cases l with
    | nil => exact absurd rfl hl
    | cons c t => rfl

theorem getLastD_default_irrel (l : List (List Char)) (hne : l ≠ []) (d d' : List Char) :
    l.getLastD d = l.getLastD d' := by
  rw [List.getLastD_eq_getLast?, List.getLastD_eq_getLast?]
  cases h : l.getLast? with
  | none =>
    rw [List.getLast?_eq_none_iff] at h
    exact absurd h hne
  | some a => rfl

theorem getLast?_joinSep (sep : Char) (ls : List (List Char))
    (h : ∀ l ∈ ls, l ≠ []) : (joinSep sep ls).getLast? = (ls.getLastD []).getLast? := by
  induction ls with
  | nil => rfl
  | cons l rest ih =>
    cases rest with
    | nil => simp [joinSep, List.getLastD_cons]
    | cons l2 rest2 =>
      have hj : joinSep sep (l2 :: rest2) ≠ [] :=
        joinSep_ne_nil sep _ (by simp) (fun x hx => h x (by simp [hx]))
      have h2 : (sep :: joinSep sep (l2 :: rest2)) ≠ [] := by simp
      simp only [joinSep]
      rw [List.getLast?_append_of_ne_nil _ h2]
      have hstep : (sep :: joinSep sep (l2 :: rest2)) = [sep] ++ joinSep sep (l2 :: rest2) := rfl
      rw [hstep, List.getLast?_append_of_ne_nil _ hj]
      rw [ih (fun x hx => h x (by simp [hx]))]
      nth_rewrite 2 [List.getLastD_cons]
      rw [getLastD_default_irrel (l2 :: rest2) (by simp) l []]

theorem flatten_ne_nil (l : List Char) (ls : List (List Char)) (hl : l ≠ []) :
    (l :: ls).flatten ≠ [] := by
  simp only [List.flatten_cons]
  intro hx
  exact hl (List.append_eq_nil.mp hx).1

theorem getLast?_flatten (ls : List (List Char)) (h : ∀ l ∈ ls, l ≠ []) :
    ls.flatten.getLast? = (ls.getLastD []).getLast? := by
  induction ls with
  | nil => rfl
  | cons l rest ih =>
    rw [List.getLastD_cons]
    cases rest with
    | nil => simp [List.flatten_cons]
    | cons l2 rest2 =>
      have hfl : (l2 :: rest2).flatten ≠ [] :=
        flatten_ne_nil l2 rest2 (h l2 (by simp))
      rw [List.flatten_cons, List.getLast?_append_of_ne_nil _ hfl]
      rw [ih (fun x hx => h x (by simp [hx]))]
      rw [getLastD_default_irrel (l2 :: rest2) (by simp) l []]

/-- The hard wrap loses no characters: flattening the wrapped lines
recovers the prefix `cur` followed by the remaining input. -/
theorem wrapChars_flatten (s cur : List Char) :
    (wrapChars cur s).flatten = cur ++ s := by
  induction s generalizing cur with
  | nil =>
    simp only [wrapChars]
    cases hcur : cur.isEmpty
    · simp [List.flatten_cons]
    · rw [List.isEmpty_iff] at hcur
      simp [hcur]
  | cons c rest ih =>
    simp only [wrapChars]
    split
    · rw [List.flatten_cons, ih []]
      simp
    · rw [ih (cur ++ [c])]
      simp

/-- Every line the hard wrap emits is non-empty. -/
theorem wrapChars_mem_ne_nil (s cur l : List Char) (hmem : l ∈ wrapChars cur s) :
    l ≠ [] := by
  induction s generalizing cur with
  | nil =>
    simp only [wrapChars] at hmem
    cases hcur2 : cur.isEmpty
    · rw [hcur2] at hmem
      simp only [if_neg Bool.false_ne_true] at hmem
      rw [List.mem_singleton] at hmem
      subst hmem
      exact fun hx => by rw [hx] at hcur2; simp at hcur2
    · rw [hcur2] at hmem
      simp at hmem
  | cons c rest ih =>
    simp only [wrapChars] at hmem
    split at hmem
    · rcases List.mem_cons.mp hmem with h1 | h2
      · subst h1
        simp
      · exact ih [] h2
    · exact ih (cur ++ [c]) hmem

/-- Every character of every wrapped line comes from the prefix or the
input being wrapped. -/
theorem wrapChars_mem_subset (s cur l : List Char) (hmem : l ∈ wrapChars cur s)
    (c : Char) (hc : c ∈ l) : c ∈ cur ∨ c ∈ s := by
  induction s generalizing cur with
  | nil =>
    simp only [wrapChars] at hmem
    split at hmem
    · simp at hmem
    · rw [List.mem_singleton] at hmem
      subst hmem
      exact Or.inl hc
  | cons d rest ih =>
    simp only [wrapChars] at hmem
    split at hmem
    · rcases List.mem_cons.mp hmem with h1 | h2
      · subst h1
        rcases List.mem_append.mp hc with h3 | h3
        · exact Or.inl h3
        · right
          rw [List.mem_singleton] at h3
          simp [h3]
      · rcases ih [] h2 with h3 | h3
        · simp at h3
        · right
          simp [h3]
    · rcases ih (cur ++ [d]) hmem with h3 | h3
      · rcases List.mem_append.mp h3 with h4 | h4
        · exact Or.inl h4
        · right
          rw [List.mem_singleton] at h4
          simp [h4]
      · right
        simp [h3]

theorem digitChar_isDigit (d : Nat) (h : d < 10) : (digitChar d).isDigit = true := by
  interval_cases d <;> decide

theorem digitChar_toNat (d : Nat) (h : d < 10) : (digitChar d).toNat = 48 + d := by
  interval_cases d <;> decide

theorem natDigitsAux_digits (fuel : Nat) : ∀ (n : Nat) (c : Char),
    c ∈ natDigitsAux fuel n → c.isDigit = true := by
  induction fuel with
  | zero => intro n c hc; simp [natDigitsAux] at hc
  | succ fuel ih =>
    intro n c hc
    simp only [natDigitsAux] at hc
    split at hc
    · rw [List.mem_singleton] at hc
      subst hc
      exact digitChar_isDigit n (by omega)
    · rcases List.mem_append.mp hc with h1 | h1
      · exact ih (n / 10) c h1
      · rw [List.mem_singleton] at h1
        subst h1
        exact digitChar_isDigit (n % 10) (Nat.mod_lt n (by omega))

theorem natDigits_digits (n : Nat) (c : Char) (hc : c ∈ natDigits n) :
    c.isDigit = true :=
  natDigitsAux_digits (n + 1) n c hc

theorem natDigitsAux_ne_nil (fuel n : Nat) : natDigitsAux (fuel + 1) n ≠ [] := by
  simp only [natDigitsAux]
  split
  · simp
  · simp

theorem natDigits_ne_nil (n : Nat) : natDigits n ≠ [] :=
  natDigitsAux_ne_nil n n

theorem digitsVal_append_single (l : List Char) (c : Char) :
    digitsVal (l ++ [c]) = 10 * digitsVal l + (c.toNat - 48) := by
  simp [digitsVal, List.foldl_append]

theorem digitsVal_natDigitsAux (fuel : Nat) : ∀ n : Nat, n < fuel →
    digitsVal (natDigitsAux fuel n) = n := by
  induction fuel with
  | zero => intro n h; omega
  | succ fuel ih =>
    intro n h
    simp only [natDigitsAux]
    split
    · show digitsVal [digitChar n] = n
      have := digitChar_toNat n (by omega)
      simp [digitsVal, this]
    · rename_i h10
      rw [digitsVal_append_single]
      have hdiv : n / 10 < fuel := by
        have h1 : n / 10 < n := Nat.div_lt_self (by omega) (by omega)
        omega
      rw [ih (n / 10) hdiv]
      have := digitChar_toNat (n % 10) (Nat.mod_lt n (by omega))
      rw [this]
      omega

theorem digitsVal_natDigits (n : Nat) : digitsVal (natDigits n) = n :=
  digitsVal_natDigitsAux (n + 1) n (by omega)

theorem runVal_natDigits (run : Nat) (h : 0 < run) :
    runVal (if run > 1 then natDigits run else []) = run := by
  split
  · rw [runVal, if_neg]
    · exact digitsVal_natDigits run
    · simp [natDigits_ne_nil run]
  · rw [runVal, if_pos (by simp)]
    omega

theorem runToken_chars (c run : Nat) (ch : Char) (hc : ch ∈ runToken c run) :
    rleChar ch = true := by
  simp only [runToken] at hc
  rcases List.mem_append.mp hc with h1 | h1
  · split at h1
    · have := natDigits_digits run ch h1
      simp [rleChar, this]
    · simp at h1
  · rw [List.mem_singleton] at h1
    subst h1
    split <;> decide

theorem runToken_ne_nil (c run : Nat) : runToken c run ≠ [] := by
  simp only [runToken]
  intro hx
  exact absurd (List.append_eq_nil.mp hx).2 (by simp)

theorem encodeRunsAux_chars (t : List Nat) : ∀ (c run : Nat) (tok : List Char),
    tok ∈ encodeRunsAux c run t → ∀ ch ∈ tok, rleChar ch = true := by
  induction t with
  | nil =>
    intro c run tok htok ch hch
    simp only [encodeRunsAux] at htok
    split at htok
    · simp at htok
    · rw [List.mem_singleton] at htok
      subst htok
      exact runToken_chars c run ch hch
  | cons d t ih =>
    intro c run tok htok ch hch
    simp only [encodeRunsAux] at htok
    split at htok
    · exact ih c (run + 1) tok htok ch hch
    · rcases List.mem_cons.mp htok with h1 | h1
      · subst h1
        exact runToken_chars c run ch hch
      · exact ih d 1 tok h1 ch hch

theorem encodeRow_chars (row : List Nat) (ch : Char) (hc : ch ∈ encodeRow row) :
    rleChar ch = true := by
  rw [encodeRow] at hc
  rcases List.mem_flatten.mp hc with ⟨tok, htok, hch⟩
  cases row with
  | nil => simp [encodeRowAux] at htok
  | cons c t => exact encodeRunsAux_chars t c 1 tok htok ch hch

theorem popEmptyRows_subset (l : List (List Char)) (x : List Char)
    (hx : x ∈ popEmptyRows l) : x ∈ l := by
  rw [popEmptyRows] at hx
  rw [List.mem_reverse] at hx
  have := (List.dropWhile_sublist List.isEmpty (l := l.reverse)).mem hx
  exact List.mem_reverse.mp this

theorem joinSep_chars (sep : Char) (ls : List (List Char)) (ch : Char)
    (hc : ch ∈ joinSep sep ls) : ch = sep ∨ ∃ l ∈ ls, ch ∈ l := by
  induction ls with
  | nil => simp [joinSep] at hc
  | cons l rest ih =>
    cases rest with
    | nil =>
      right
      exact ⟨l, by simp, hc⟩
    | cons l2 rest2 =>
      simp only [joinSep] at hc
      rcases List.mem_append.mp hc with h1 | h1
      · right
        exact ⟨l, by simp, h1⟩
      · rcases List.mem_cons.mp h1 with h2 | h2
        · exact Or.inl h2
        · rcases ih h2 with h3 | ⟨l', hl', hch⟩
          · exact Or.inl h3
          · right
            exact ⟨l', by simp [hl'], hch⟩

/-- Every character of an encoded RLE body is a digit, a run tag, `$` or
`!`. -/
theorem rleBody_chars (m : List (List Nat)) (ch : Char) (hc : ch ∈ rleBody m) :
    rleChar ch = true := by
  rw [rleBody] at hc
  rcases List.mem_append.mp hc with h1 | h1
  · rcases joinSep_chars '$' _ ch h1 with h2 | ⟨l, hl, hch⟩
    · subst h2
      decide
    · rcases List.mem_map.mp (popEmptyRows_subset _ l hl) with ⟨row, _, hrow⟩
      subst hrow
      exact encodeRow_chars row ch hch
  · rw [List.mem_singleton] at h1
    subst h1
    decide

theorem rleBody_ne_nil (m : List (List Nat)) : rleBody m ≠ [] := by
  rw [rleBody]
  intro hx
  exact absurd (List.append_eq_nil.mp hx).2 (by simp)

theorem rleBody_getLast (m : List (List Nat)) : (rleBody m).getLast? = some '!' := by
  rw [rleBody, List.getLast?_append_of_ne_nil _ (by simp)]
  rfl

theorem matchY_not_y (c : Char) (rest : List Char) (h : c ≠ 'y') :
    matchY (c :: rest) = none := by
  unfold matchY
  split
  · rename_i heq
    injection heq with h1 h2
    exact absurd h1 h
  · rfl

theorem searchYRight_none (s : List Char) (h : ∀ c ∈ s, c ≠ 'y') :
    searchYRight s = none := by
  induction s with
  | nil => rfl
  | cons c rest ih =>
    simp only [searchYRight]
    rw [ih (fun c' hc' => h c' (by simp [hc']))]
    exact matchY_not_y c rest (h c (by simp))

theorem searchYRight_append (pre s : List Char) (n : Nat)
    (h : searchYRight s = some n) : searchYRight (pre ++ s) = some n := by
  induction pre with
  | nil => exact h
  | cons c pre' ih =>
    have hstep : (c :: pre') ++ s = c :: (pre' ++ s) := rfl
    rw [hstep]
    simp only [searchYRight]
    rw [ih]

theorem takeWhile_digits_append (ds : List Char) (a : Char) (r : List Char)
    (hds : ∀ c ∈ ds, c.isDigit = true) (ha : a.isDigit = false) :
    (ds ++ a :: r).takeWhile Char.isDigit = ds := by
  induction ds with
  | nil =>
    rw [List.nil_append, List.takeWhile_cons, ha]
    rfl
  | cons d ds' ih =>
    have hstep : (d :: ds') ++ a :: r = d :: (ds' ++ a :: r) := rfl
    rw [hstep, List.takeWhile_cons, hds d (by simp)]
    rw [ih (fun c hc => hds c (by simp [hc]))]
    rw [if_pos rfl]

theorem matchEqNum_eval (ds rest : List Char) (a : Char)
    (hds : ∀ c ∈ ds, c.isDigit = true) (hne : ds ≠ []) (ha : a.isDigit = false) :
    matchEqNum (' ' :: '=' :: ' ' :: (ds ++ a :: rest)) =
      some (digitsVal ds, a :: rest) := by
  have hdw : List.dropWhile isPyWs (' ' :: '=' :: ' ' :: (ds ++ a :: rest)) =
      '=' :: ' ' :: (ds ++ a :: rest) := by
    rw [List.dropWhile_cons, if_pos (by decide), List.dropWhile_cons, if_neg (by decide)]
  have hdw2 : List.dropWhile isPyWs (' ' :: (ds ++ a :: rest)) = ds ++ a :: rest := by
    rw [List.dropWhile_cons, if_pos (by decide)]
    cases ds with
    | nil => exact absurd rfl hne
    | cons d ds' =>
      have hstep : (d :: ds') ++ a :: rest = d :: (ds' ++ a :: rest) := rfl
      rw [hstep, List.dropWhile_cons, if_neg (by simp [digit_not_ws d (hds d (by simp))])]
  unfold matchEqNum
  rw [hdw]
  show (let l3 := List.dropWhile isPyWs (' ' :: (ds ++ a :: rest))
        let dsx := l3.takeWhile Char.isDigit
        if dsx.isEmpty then none else some (digitsVal dsx, l3.drop dsx.length)) =
    some (digitsVal ds, a :: rest)
  rw [hdw2]
  show (let dsx := (ds ++ a :: rest).takeWhile Char.isDigit
        if dsx.isEmpty then none else some (digitsVal dsx, (ds ++ a :: rest).drop dsx.length))
    = some (digitsVal ds, a :: rest)
  rw [takeWhile_digits_append ds a rest hds ha]
  show (if ds.isEmpty then none
        else some (digitsVal ds, (ds ++ a :: rest).drop ds.length)) =
    some (digitsVal ds, a :: rest)
  rw [if_neg (by simp [hne]), List.drop_left]

theorem matchY_eval (ds rest : List Char) (a : Char)
    (hds : ∀ c ∈ ds, c.isDigit = true) (hne : ds ≠ []) (ha : a.isDigit = false) :
    matchY ('y' :: ' ' :: '=' :: ' ' :: (ds ++ a :: rest)) = some (digitsVal ds) := by
  show (matchEqNum (' ' :: '=' :: ' ' :: (ds ++ a :: rest))).map (fun p => p.1) =
    some (digitsVal ds)
  rw [matchEqNum_eval ds rest a hds hne ha]
  rfl

theorem searchXHeader_header (w h : Nat) :
    searchXHeader (rleHeaderLine w h) = some (w, h) := by
  have l1d : ("x = ").data = ['x', ' ', '=', ' '] := by decide
  have l2d : (", y = ").data = [',', ' ', 'y', ' ', '=', ' '] := by decide
  have l3d : (", rule = B3/S23").data = [',', ' ', 'r', 'u', 'l', 'e', ' ', '=', ' ', 'B', '3', '/', 'S', '2', '3'] := by decide
  have htail_no_y : ∀ c ∈ (' ' :: '=' :: ' ' ::
      (natDigits h ++ [',', ' ', 'r', 'u', 'l', 'e', ' ', '=', ' ', 'B', '3', '/', 'S', '2', '3'])), c ≠ 'y' := by
    intro c hc
    rcases List.mem_cons.mp hc with h1 | hc2
    · subst h1; decide
    rcases List.mem_cons.mp hc2 with h1 | hc3
    · subst h1; decide
    rcases List.mem_cons.mp hc3 with h1 | hc4
    · subst h1; decide
    rcases List.mem_append.mp hc4 with h1 | h1
    · exact digit_ne c 'y' (natDigits_digits h c h1) (by right; decide)
    · have hall : ∀ x ∈ [',', ' ', 'r', 'u', 'l', 'e', ' ', '=', ' ', 'B', '3', '/', 'S', '2', '3'], x ≠ 'y' := by decide
      exact hall c h1
  have hsy : searchYRight (' ' :: '=' :: ' ' ::
      (natDigits h ++ [',', ' ', 'r', 'u', 'l', 'e', ' ', '=', ' ', 'B', '3', '/', 'S', '2', '3'])) = none :=
    searchYRight_none _ htail_no_y
  have hmy : matchY ('y' :: ' ' :: '=' :: ' ' ::
      (natDigits h ++ [',', ' ', 'r', 'u', 'l', 'e', ' ', '=', ' ', 'B', '3', '/', 'S', '2', '3'])) = some h := by
    have hstep : (natDigits h ++ ([',', ' ', 'r', 'u', 'l', 'e', ' ', '=', ' ', 'B', '3', '/', 'S', '2', '3'] : List Char)) =
        natDigits h ++ ',' :: [' ', 'r', 'u', 'l', 'e', ' ', '=', ' ', 'B', '3', '/', 'S', '2', '3'] := rfl
    rw [hstep, matchY_eval (natDigits h) _ ',' (natDigits_digits h) (natDigits_ne_nil h)
      (by decide)]
    rw [digitsVal_natDigits]
  have hy : searchYRight ('y' :: ' ' :: '=' :: ' ' ::
      (natDigits h ++ [',', ' ', 'r', 'u', 'l', 'e', ' ', '=', ' ', 'B', '3', '/', 'S', '2', '3'])) = some h := by
    rw [searchYRight, hsy]
    exact hmy
  have hyfull : searchYRight (',' :: ' ' :: 'y' :: ' ' :: '=' :: ' ' ::
      (natDigits h ++ [',', ' ', 'r', 'u', 'l', 'e', ' ', '=', ' ', 'B', '3', '/', 'S', '2', '3'])) = some h :=
    searchYRight_append [',', ' '] _ h hy
  have hmEq : matchEqNum (' ' :: '=' :: ' ' ::
      (natDigits w ++ ',' :: ' ' :: 'y' :: ' ' :: '=' :: ' ' ::
        (natDigits h ++ [',', ' ', 'r', 'u', 'l', 'e', ' ', '=', ' ', 'B', '3', '/', 'S', '2', '3']))) =
      some (w, ',' :: ' ' :: 'y' :: ' ' :: '=' :: ' ' ::
        (natDigits h ++ [',', ' ', 'r', 'u', 'l', 'e', ' ', '=', ' ', 'B', '3', '/', 'S', '2', '3'])) := by
    rw [matchEqNum_eval (natDigits w) _ ',' (natDigits_digits w) (natDigits_ne_nil w)
      (by decide)]
    rw [digitsVal_natDigits]
  rw [rleHeaderLine, l1d, l2d, l3d]
  simp only [List.cons_append, List.nil_append, List.append_assoc]
  rw [searchXHeader, if_pos rfl, hmEq]
  simp only [hyfull]

theorem rleHeaderLine_head (w h : Nat) : (rleHeaderLine w h).head? = some 'x' := rfl

theorem rleHeaderLine_getLast (w h : Nat) :
    (rleHeaderLine w h).getLast? = some '3' := by
  rw [rleHeaderLine]
  rw [List.getLast?_append_of_ne_nil _ (by decide)]
  decide

theorem rleHeaderLine_ne_nil (w h : Nat) : rleHeaderLine w h ≠ [] := by
  intro hx
  have := congrArg List.head? hx
  rw [rleHeaderLine_head] at this
  simp at this

theorem rleHeaderLine_no_nl (w h : Nat) (c : Char) (hc : c ∈ rleHeaderLine w h) :
    c ≠ '\n' := by
  rw [rleHeaderLine] at hc
  simp only [List.mem_append] at hc
  rcases hc with (((h1 | h1) | h1) | h1) | h1
  · have hall : ∀ x ∈ ("x = ").data, x ≠ '\n' := by decide
    exact hall c h1
  · exact digit_ne c '\n' (natDigits_digits w c h1) (by left; decide)
  · have hall : ∀ x ∈ (", y = ").data, x ≠ '\n' := by decide
    exact hall c h1
  · exact digit_ne c '\n' (natDigits_digits h c h1) (by left; decide)
  · have hall : ∀ x ∈ (", rule = B3/S23").data, x ≠ '\n' := by decide
    exact hall c h1

theorem pyStrip_rleHeaderLine (w h : Nat) :
    pyStrip (rleHeaderLine w h) = rleHeaderLine w h := by
  refine pyStrip_eq_self _ ?_ ?_
  · intro c hc
    rw [rleHeaderLine_head] at hc
    injection hc with hc
    subst hc
    decide
  · intro c hc
    rw [rleHeaderLine_getLast] at hc
    injection hc with hc
    subst hc
    decide

theorem rleHeaderLine_not_hash (w h : Nat) :
    pyStartsWith ['#'] (rleHeaderLine w h) = false := rfl

theorem rleHeaderLine_starts_x (w h : Nat) :
    pyStartsWith ['x'] (rleHeaderLine w h) = true := rfl

theorem rleHeaderLine_not_empty (w h : Nat) :
    (rleHeaderLine w h).isEmpty = false := rfl

/-- A non-empty line of RLE body characters passes straight to `plines`. -/
theorem parseRleScan_body (lines : List (List Char))
    (hl : ∀ l ∈ lines, l ≠ [] ∧ ∀ c ∈ l, rleChar c = true) :
    ∀ st : RleScan, parseRleScan st lines = { st with plines := st.plines ++ lines } := by
  induction lines with
  | nil =>
    intro st
    cases st
    simp [parseRleScan]
  | cons line rest ih =>
    intro st
    obtain ⟨hne, hchars⟩ := hl line (by simp)
    have hstrip : pyStrip line = line :=
      pyStrip_eq_self_all line (fun c hc => rleChar_not_ws c (hchars c hc))
    have hempty : line.isEmpty = false := by
      cases line with
      | nil => exact absurd rfl hne
      | cons c t => rfl
    have hhash : pyStartsWith (("#").data) line = false := by
      cases line with
      | nil => exact absurd rfl hne
      | cons c t =>
        show ('#' == c && pyStartsWith [] t) = false
        have : c ≠ '#' := fun hx => absurd (hx ▸ hchars c (by simp)) (by decide)
        simp [beq_eq_false_iff_ne, Ne, this]
        intro h1
        exact absurd h1.symm this
    have hx : pyStartsWith (("x").data) line = false := by
      cases line with
      | nil => exact absurd rfl hne
      | cons c t =>
        show ('x' == c && pyStartsWith [] t) = false
        have : c ≠ 'x' := rleChar_ne_x c (hchars c (by simp))
        simp [beq_eq_false_iff_ne, Ne]
        intro h1
        exact absurd h1.symm this
    simp only [parseRleScan, hstrip, hempty, hhash, hx, Bool.false_eq_true, if_false]
    rw [ih (fun l hl' => hl l (by simp [hl'])) _]
    cases st
    simp [List.append_assoc]

/-- The header line sets the scanned width and height. -/
theorem parseRleScan_header (w h : Nat) (rest : List (List Char)) (st : RleScan) :
    parseRleScan st (rleHeaderLine w h :: rest) =
      parseRleScan { st with width := w, height := h } rest := by
  simp only [parseRleScan, pyStrip_rleHeaderLine, rleHeaderLine_not_empty,
    rleHeaderLine_not_hash, rleHeaderLine_starts_x, Bool.false_eq_true, if_false,
    if_true, searchXHeader_header]

theorem toRleLines_empty_meta (m : List (List Nat)) :
    toRleLines m [] [] [] =
      rleHeaderLine (matWidth m) m.length :: wrapChars [] (rleBody m) := by
  simp [toRleLines]

theorem wrapChars_body_ne_nil (m : List (List Nat)) :
    wrapChars [] (rleBody m) ≠ [] := by
  intro hx
  have := wrapChars_flatten (rleBody m) []
  rw [hx] at this
  exact rleBody_ne_nil m (by simpa using this.symm)

theorem to_rle_getLast (m : List (List Nat)) :
    (to_rle m [] [] []).getLast? = some '!' := by
  rw [to_rle, toRleLines_empty_meta]
  rw [getLast?_joinSep '\n' _ ?hne]
  case hne =>
    intro l hl
    rcases List.mem_cons.mp hl with h1 | h1
    · subst h1
      exact rleHeaderLine_ne_nil _ _
    · exact wrapChars_mem_ne_nil _ _ _ h1
  rw [List.getLastD_cons]
  rw [getLastD_default_irrel _ (wrapChars_body_ne_nil m) (rleHeaderLine (matWidth m) m.length) []]
  rw [← getLast?_flatten _ (fun l hl => wrapChars_mem_ne_nil _ _ _ hl)]
  rw [wrapChars_flatten (rleBody m) []]
  rw [List.nil_append]
  exact rleBody_getLast m

theorem to_rle_head (m : List (List Nat)) :
    (to_rle m [] [] []).head? = some 'x' := by
  rw [to_rle, toRleLines_empty_meta]
  rw [head?_joinSep '\n' _ _ (rleHeaderLine_ne_nil _ _)]
  exact rleHeaderLine_head _ _

theorem pyStrip_to_rle (m : List (List Nat)) :
    pyStrip (to_rle m [] [] []) = to_rle m [] [] [] := by
  refine pyStrip_eq_self _ ?_ ?_
  · intro c hc
    rw [to_rle_head m] at hc
    injection hc with hc
    subst hc
    decide
  · intro c hc
    rw [to_rle_getLast m] at hc
    injection hc with hc
    subst hc
    decide

theorem split_to_rle (m : List (List Nat)) :
    splitOnChar '\n' (to_rle m [] [] []) =
      rleHeaderLine (matWidth m) m.length :: wrapChars [] (rleBody m) := by
  rw [to_rle, toRleLines_empty_meta]
  refine splitOnChar_joinSep '\n' _ (by simp) ?_
  intro l hl hc
  rcases List.mem_cons.mp hl with h1 | h1
  · subst h1
    exact rleHeaderLine_no_nl _ _ '\n' hc rfl
  · rcases wrapChars_mem_subset (rleBody m) [] l h1 '\n' hc with h2 | h2
    · simp at h2
    · exact rleChar_ne_nl '\n' (rleBody_chars m '\n' h2) rfl

/-- Scanning the output of `to_rle` (with empty metadata) recovers the
header dimensions and the wrapped body lines. -/
theorem rleScanned_to_rle (m : List (List Nat)) :
    rleScanned (to_rle m [] [] []) =
      ⟨PatternMeta.empty, matWidth m, m.length, wrapChars [] (rleBody m)⟩ := by
  rw [rleScanned, pyStrip_to_rle, split_to_rle]
  rw [parseRleScan_header]
  rw [parseRleScan_body _ ?hchars _]
  case hchars =>
    intro l hl
    refine ⟨wrapChars_mem_ne_nil _ _ _ hl, ?_⟩
    intro c hc
    rcases wrapChars_mem_subset (rleBody m) [] l hl c hc with h2 | h2
    · simp at h2
    · exact rleBody_chars m c h2
  rfl



theorem writeCells_snd : ∀ (k width height : Nat) (data : Nat → Nat → Nat) (y x : Nat),
    (writeCells width height data y x k).2 = x + k := by
  intro k
  induction k with
  | zero => intro width height data y x; rfl
  | succ k ih =>
    intro width height data y x
    show (writeCells width height _ y (x + 1) k).2 = x + (k + 1)
    rw [ih]
    omega

theorem writeCells_data : ∀ (k width height : Nat) (data : Nat → Nat → Nat)
    (y x yy xx : Nat),
    (writeCells width height data y x k).1 yy xx =
      if y < height ∧ yy = y ∧ x ≤ xx ∧ xx < x + k ∧ xx < width then 1
      else data yy xx := by
  intro k
  induction k with
  | zero =>
    intro width height data y x yy xx
    rw [if_neg (by omega)]
    rfl
  | succ k ih =>
    intro width height data y x yy xx
    show (writeCells width height
        (if y < height ∧ x < width then updateCell data y x 1 else data) y (x + 1) k).1 yy xx = _
    rw [ih]
    by_cases h1 : y < height ∧ yy = y ∧ x + 1 ≤ xx ∧ xx < x + 1 + k ∧ xx < width
    · rw [if_pos h1, if_pos (by obtain ⟨a, b, c, d, e⟩ := h1; exact ⟨a, b, by omega, by omega, e⟩)]
    · rw [if_neg h1]
      by_cases h2 : y < height ∧ x < width
      · rw [if_pos h2]
        show (if yy = y ∧ xx = x then 1 else data yy xx) = _
        by_cases h3 : yy = y ∧ xx = x
        · rw [if_pos h3, if_pos ⟨h2.1, h3.1, by omega, by omega, by omega⟩]
        · rw [if_neg h3, if_neg ?hneg]
          case hneg =>
            rintro ⟨a, b, c, d, e⟩
            rcases Nat.lt_or_ge xx (x + 1) with h4 | h4
            · exact h3 ⟨b, by omega⟩
            · exact h1 ⟨a, b, by omega, by omega, e⟩
      · rw [if_neg h2, if_neg ?hneg2]
        case hneg2 =>
          rintro ⟨a, b, c, d, e⟩
          rcases Nat.lt_or_ge xx (x + 1) with h4 | h4
          · exact h2 ⟨a, by omega⟩
          · exact h1 ⟨a, b, by omega, by omega, e⟩

theorem decodeRle_nil (width height : Nat) (st : RleSt) :
    decodeRle width height st [] = st := rfl

theorem decodeRle_digit (width height : Nat) (st : RleSt) (c : Char)
    (hc : c.isDigit = true) (rest : List Char) :
    decodeRle width height st (c :: rest) =
      decodeRle width height { st with run := st.run ++ [c] } rest := by
  simp only [decodeRle, hc, if_true]

theorem decodeRle_b (width height : Nat) (st : RleSt) (rest : List Char) :
    decodeRle width height st ('b' :: rest) =
      decodeRle width height { st with x := st.x + runVal st.run, run := [] } rest := by
  simp only [decodeRle]
  rw [if_neg (by decide), if_pos trivial]

theorem decodeRle_o (width height : Nat) (st : RleSt) (rest : List Char) :
    decodeRle width height st ('o' :: rest) =
      decodeRle width height
        { st with data := (writeCells width height st.data st.y st.x (runVal st.run)).1,
                  x := (writeCells width height st.data st.y st.x (runVal st.run)).2,
                  run := [] } rest := by
  simp only [decodeRle]
  rw [if_neg (by decide), if_neg (by decide), if_pos trivial]

theorem decodeRle_dollar (width height : Nat) (st : RleSt) (rest : List Char) :
    decodeRle width height st ('$' :: rest) =
      decodeRle width height { st with y := st.y + runVal st.run, x := 0, run := [] } rest := by
  simp only [decodeRle]
  rw [if_neg (by decide), if_neg (by decide), if_neg (by decide), if_pos trivial]

theorem decodeRle_bang (width height : Nat) (st : RleSt) (rest : List Char) :
    decodeRle width height st ('!' :: rest) = st := by
  simp only [decodeRle]
  rw [if_neg (by decide), if_neg (by decide), if_neg (by decide), if_neg (by decide),
    if_pos trivial]

theorem decodeRle_digits (ds : List Char) (hds : ∀ c ∈ ds, c.isDigit = true) :
    ∀ (width height : Nat) (st : RleSt) (rest : List Char),
    decodeRle width height st (ds ++ rest) =
      decodeRle width height { st with run := st.run ++ ds } rest := by
  induction ds with
  | nil =>
    intro width height st rest
    cases st
    simp
  | cons c ds' ih =>
    intro width height st rest
    have hstep : (c :: ds') ++ rest = c :: (ds' ++ rest) := rfl
    rw [hstep, decodeRle_digit width height st c (hds c (by simp)) _]
    rw [ih (fun x hx => hds x (by simp [hx])) width height _ rest]
    cases st
    simp [List.append_assoc]

theorem getD_replicate {α : Type} (n i : Nat) (a d : α) :
    (List.replicate n a).getD i d = if i < n then a else d := by
  by_cases h : i < n
  · rw [if_pos h, List.getD_eq_getElem _ _ (by simpa using h)]
    simp
  · rw [if_neg h, List.getD_eq_default]
    simpa using h

theorem segWrite_nil (data : Nat → Nat → Nat) (width height y x : Nat) :
    segWrite data width height y x [] = data := by
  funext yy xx
  rw [segWrite]
  rw [if_neg (by rintro ⟨-, -, h1, h2, -⟩; simp at h2; omega)]

theorem segWrite_replicate_zero (data : Nat → Nat → Nat) (width height y x run : Nat) :
    segWrite data width height y x (List.replicate run 0) = data := by
  funext yy xx
  rw [segWrite]
  rw [if_neg (by
    rintro ⟨-, -, -, -, -, h6⟩
    rw [getD_replicate] at h6
    split at h6 <;> simp at h6)]

theorem segWrite_replicate_live (data : Nat → Nat → Nat)
    (width height y x run c yy xx : Nat) (hc : c ≠ 0) :
    segWrite data width height y x (List.replicate run c) yy xx =
      if y < height ∧ yy = y ∧ x ≤ xx ∧ xx < x + run ∧ xx < width then 1
      else data yy xx := by
  rw [segWrite]
  by_cases h1 : y < height ∧ yy = y ∧ x ≤ xx ∧ xx < x + run ∧ xx < width
  · rw [if_pos h1]
    obtain ⟨a, b, c2, d, e⟩ := h1
    rw [if_pos ?hp]
    case hp =>
      refine ⟨a, b, c2, by simpa using d, e, ?_⟩
      rw [getD_replicate, if_pos (by omega)]
      exact hc
  · rw [if_neg h1]
    rw [if_neg (by
      rintro ⟨a, b, c2, d, e, -⟩
      exact h1 ⟨a, b, c2, by simpa using d, e⟩)]

theorem segWrite_append (data : Nat → Nat → Nat) (width height y x : Nat)
    (seg1 seg2 : List Nat) :
    segWrite (segWrite data width height y x seg1) width height y
      (x + seg1.length) seg2 = segWrite data width height y x (seg1 ++ seg2) := by
  funext yy xx
  simp only [segWrite, List.length_append]
  by_cases h2 : y < height ∧ yy = y ∧ x + seg1.length ≤ xx ∧
      xx < x + seg1.length + seg2.length ∧ xx < width ∧
      seg2.getD (xx - (x + seg1.length)) 0 ≠ 0
  · rw [if_pos h2]
    obtain ⟨a, b, c, d, e, f⟩ := h2
    rw [if_pos ?hp2]
    case hp2 =>
      refine ⟨a, b, by omega, by omega, e, ?_⟩
      rw [List.getD_append_right seg1 seg2 _ _ (by omega)]
      have hidx : xx - x - seg1.length = xx - (x + seg1.length) := by omega
      rw [hidx]
      exact f
  · rw [if_neg h2]
    by_cases h1 : y < height ∧ yy = y ∧ x ≤ xx ∧ xx < x + seg1.length ∧ xx < width ∧
        seg1.getD (xx - x) 0 ≠ 0
    · rw [if_pos h1]
      obtain ⟨a, b, c, d, e, f⟩ := h1
      rw [if_pos ?hp1]
      case hp1 =>
        refine ⟨a, b, c, by omega, e, ?_⟩
        rw [List.getD_append seg1 seg2 _ _ (by omega)]
        exact f
    · rw [if_neg h1]
      rw [if_neg ?hn]
      case hn =>
        rintro ⟨a, b, c, d, e, f⟩
        rcases Nat.lt_or_ge xx (x + seg1.length) with h4 | h4
        · rw [List.getD_append seg1 seg2 _ _ (by omega)] at f
          exact h1 ⟨a, b, c, h4, e, f⟩
        · rw [List.getD_append_right seg1 seg2 _ _ (by omega)] at f
          have hidx : xx - x - seg1.length = xx - (x + seg1.length) := by omega
          rw [hidx] at f
          exact h2 ⟨a, b, h4, by omega, e, f⟩

theorem decodeRle_runToken_live (width height c run : Nat) (hc : c ≠ 0) (hrun : 0 < run)
    (data : Nat → Nat → Nat) (y x : Nat) (rest : List Char) :
    decodeRle width height ⟨x, y, [], data⟩ (runToken c run ++ rest) =
      decodeRle width height ⟨x + run, y, [],
        segWrite data width height y x (List.replicate run c)⟩ rest := by
  rw [runToken, if_pos hc, List.append_assoc]
  have hds : ∀ ch ∈ (if run > 1 then natDigits run else []), ch.isDigit = true := by
    split
    · exact natDigits_digits run
    · simp
  rw [show ['o'] ++ rest = 'o' :: rest from rfl]
  rw [decodeRle_digits _ hds width height _ ('o' :: rest)]
  rw [decodeRle_o]
  have hrv : runVal (([] : List Char) ++ (if run > 1 then natDigits run else [])) = run := by
    rw [List.nil_append]
    exact runVal_natDigits run hrun
  show decodeRle width height
      ⟨(writeCells width height data y x (runVal ([] ++ (if run > 1 then natDigits run else [])))).2,
       y, [],
       (writeCells width height data y x (runVal ([] ++ (if run > 1 then natDigits run else [])))).1⟩
      rest = _
  rw [hrv]
  have h2 : (writeCells width height data y x run).2 = x + run :=
    writeCells_snd run width height data y x
  have h1 : (writeCells width height data y x run).1 =
      segWrite data width height y x (List.replicate run c) := by
    funext yy xx
    rw [writeCells_data, segWrite_replicate_live data width height y x run c yy xx hc]
  rw [h1, h2]

theorem decodeRle_runToken_dead (width height run : Nat) (hrun : 0 < run)
    (data : Nat → Nat → Nat) (y x : Nat) (rest : List Char) :
    decodeRle width height ⟨x, y, [], data⟩ (runToken 0 run ++ rest) =
      decodeRle width height ⟨x + run, y, [], data⟩ rest := by
  rw [runToken, show (if (0 : Nat) ≠ 0 then 'o' else 'b') = 'b' from by decide,
    List.append_assoc]
  have hds : ∀ ch ∈ (if run > 1 then natDigits run else []), ch.isDigit = true := by
    split
    · exact natDigits_digits run
    · simp
  rw [show ['b'] ++ rest = 'b' :: rest from rfl]
  rw [decodeRle_digits _ hds width height _ ('b' :: rest)]
  rw [decodeRle_b]
  have hrv : runVal (([] : List Char) ++ (if run > 1 then natDigits run else [])) = run := by
    rw [List.nil_append]
    exact runVal_natDigits run hrun
  show decodeRle width height
      ⟨x + runVal ([] ++ (if run > 1 then natDigits run else [])), y, [], data⟩ rest = _
  rw [hrv]

theorem segWrite_zero_shift (data : Nat → Nat → Nat) (width height y x run : Nat)
    (seg : List Nat) :
    segWrite data width height y (x + run) seg =
      segWrite data width height y x (List.replicate run 0 ++ seg) := by
  conv_lhs => rw [show data = segWrite data width height y x (List.replicate run 0) from
    (segWrite_replicate_zero data width height y x run).symm]
  rw [show x + run = x + (List.replicate run (0 : Nat)).length from by simp, segWrite_append]

theorem decodeRle_encodeRuns (t : List Nat) : ∀ (c run width height y x : Nat)
    (data : Nat → Nat → Nat) (rest : List Char), 0 < run →
    ∃ x2, decodeRle width height ⟨x, y, [], data⟩
        ((encodeRunsAux c run t).flatten ++ rest) =
      decodeRle width height ⟨x2, y, [],
        segWrite data width height y x (List.replicate run c ++ t)⟩ rest := by
  induction t with
  | nil =>
    intro c run width height y x data rest hrun
    simp only [encodeRunsAux]
    by_cases hc : c = 0
    · subst hc
      rw [if_pos rfl]
      refine ⟨x, ?_⟩
      rw [show (([] : List (List Char)).flatten ++ rest) = rest from rfl]
      rw [List.append_nil, segWrite_replicate_zero]
    · rw [if_neg hc]
      refine ⟨x + run, ?_⟩
      simp only [List.flatten_cons, List.flatten_nil, List.append_nil]
      rw [decodeRle_runToken_live width height c run hc hrun data y x rest]
  | cons d t' ih =>
    intro c run width height y x data rest hrun
    simp only [encodeRunsAux]
    by_cases hd : d = c
    · subst hd
      rw [if_pos rfl]
      obtain ⟨x2, hx2⟩ := ih d (run + 1) width height y x data rest (by omega)
      refine ⟨x2, ?_⟩
      rw [hx2]
      rw [show List.replicate (run + 1) d ++ t' = List.replicate run d ++ d :: t' from by
        rw [List.replicate_succ', List.append_assoc]
        rfl]
    · rw [if_neg hd]
      simp only [List.flatten_cons]
      rw [List.append_assoc]
      by_cases hc : c = 0
      · subst hc
        rw [decodeRle_runToken_dead width height run hrun data y x _]
        obtain ⟨x2, hx2⟩ := ih d 1 width height y (x + run) data rest (by omega)
        refine ⟨x2, ?_⟩
        rw [hx2]
        rw [show List.replicate 1 d ++ t' = d :: t' from rfl]
        rw [segWrite_zero_shift]
      · rw [decodeRle_runToken_live width height c run hc hrun data y x _]
        obtain ⟨x2, hx2⟩ := ih d 1 width height y (x + run)
          (segWrite data width height y x (List.replicate run c)) rest (by omega)
        refine ⟨x2, ?_⟩
        rw [hx2]
        rw [show List.replicate 1 d ++ t' = d :: t' from rfl]
        rw [show x + run = x + (List.replicate run c).length from by simp, segWrite_append]

theorem decodeRle_encodeRow (r : List Nat) (width height y : Nat)
    (data : Nat → Nat → Nat) (rest : List Char) :
    ∃ x2, decodeRle width height ⟨0, y, [], data⟩ (encodeRow r ++ rest) =
      decodeRle width height ⟨x2, y, [], segWrite data width height y 0 r⟩ rest := by
  cases r with
  | nil =>
    refine ⟨0, ?_⟩
    rw [show encodeRow [] = [] from rfl, List.nil_append, segWrite_nil]
  | cons c t =>
    obtain ⟨x2, hx2⟩ := decodeRle_encodeRuns t c 1 width height y 0 data rest (by omega)
    refine ⟨x2, ?_⟩
    rw [show encodeRow (c :: t) = (encodeRunsAux c 1 t).flatten from rfl]
    rw [hx2]
    rw [show List.replicate 1 c ++ t = c :: t from rfl]

theorem rowsWrite_single (data : Nat → Nat → Nat) (width height y : Nat) (r : List Nat) :
    segWrite data width height y 0 r = rowsWrite data width height y [r] := by
  funext yy xx
  simp only [segWrite, rowsWrite, List.length_cons, List.length_nil]
  by_cases h1 : y < height ∧ yy = y ∧ 0 ≤ xx ∧ xx < 0 + r.length ∧ xx < width ∧
      r.getD (xx - 0) 0 ≠ 0
  · rw [if_pos h1]
    obtain ⟨a, b, c, d, e, f⟩ := h1
    rw [if_pos ?hp]
    case hp =>
      refine ⟨by omega, by omega, by omega, e, ?_⟩
      have hi : yy - y = 0 := by omega
      rw [hi, List.getD_cons_zero]
      simpa using f
  · rw [if_neg h1]
    rw [if_neg ?hn]
    case hn =>
      rintro ⟨a, b, c, d, e⟩
      have hyy : yy = y := by omega
      rw [show yy - y = 0 from by omega, List.getD_cons_zero] at e
      have hlt : xx < r.length := by
        by_contra hge
        rw [List.getD_eq_default _ _ (by omega)] at e
        exact e rfl
      exact h1 ⟨by omega, hyy, by omega, by omega, d, by simpa using e⟩

theorem rowsWrite_cons (data : Nat → Nat → Nat) (width height y : Nat) (r : List Nat)
    (rows2 : List (List Nat)) :
    rowsWrite (segWrite data width height y 0 r) width height (y + 1) rows2 =
      rowsWrite data width height y (r :: rows2) := by
  funext yy xx
  simp only [rowsWrite, segWrite, List.length_cons]
  by_cases hA : y + 1 ≤ yy ∧ yy < y + 1 + rows2.length ∧ yy < height ∧ xx < width ∧
      (rows2.getD (yy - (y + 1)) []).getD xx 0 ≠ 0
  · rw [if_pos hA]
    obtain ⟨a, b, c, d, e⟩ := hA
    rw [if_pos ?hp]
    case hp =>
      refine ⟨by omega, by omega, c, d, ?_⟩
      rw [show yy - y = (yy - (y + 1)) + 1 from by omega, List.getD_cons_succ]
      exact e
  · rw [if_neg hA]
    by_cases hB : y < height ∧ yy = y ∧ 0 ≤ xx ∧ xx < 0 + r.length ∧ xx < width ∧
        r.getD (xx - 0) 0 ≠ 0
    · rw [if_pos hB]
      obtain ⟨a, b, c, d, e, f⟩ := hB
      rw [if_pos ?hp2]
      case hp2 =>
        refine ⟨by omega, by omega, by omega, e, ?_⟩
        rw [show yy - y = 0 from by omega, List.getD_cons_zero]
        simpa using f
    · rw [if_neg hB]
      rw [if_neg ?hn]
      case hn =>
        rintro ⟨a, b, c, d, e⟩
        rcases Nat.lt_or_ge yy (y + 1) with h4 | h4
        · have hyy : yy = y := by omega
          rw [show yy - y = 0 from by omega, List.getD_cons_zero] at e
          have hlt : xx < r.length := by
            by_contra hge
            rw [List.getD_eq_default _ _ (by omega)] at e
            exact e rfl
          exact hB ⟨by omega, hyy, by omega, by omega, d, by simpa using e⟩
        · rw [show yy - y = (yy - (y + 1)) + 1 from by omega, List.getD_cons_succ] at e
          exact hA ⟨h4, by omega, c, d, e⟩

theorem decodeRle_rows (rows : List (List Nat)) : rows ≠ [] →
    ∀ (width height y : Nat) (data : Nat → Nat → Nat),
    (decodeRle width height ⟨0, y, [], data⟩
        (joinSep '$' (rows.map encodeRow) ++ ['!'])).data =
      rowsWrite data width height y rows := by
  induction rows with
  | nil => intro h; exact absurd rfl h
  | cons r rows2 ih =>
    intro _ width height y data
    cases rows2 with
    | nil =>
      rw [show joinSep '$' (([r] : List (List Nat)).map encodeRow) = encodeRow r from rfl]
      obtain ⟨x2, hx2⟩ := decodeRle_encodeRow r width height y data ['!']
      rw [hx2, decodeRle_bang]
      exact congrArg (fun f => f) (rowsWrite_single data width height y r)
    | cons r2 rows3 =>
      rw [show joinSep '$' ((r :: r2 :: rows3).map encodeRow) =
          encodeRow r ++ '$' :: joinSep '$' ((r2 :: rows3).map encodeRow) from rfl]
      rw [List.append_assoc]
      rw [show ('$' :: joinSep '$' ((r2 :: rows3).map encodeRow)) ++ ['!'] =
          '$' :: (joinSep '$' ((r2 :: rows3).map encodeRow) ++ ['!']) from rfl]
      obtain ⟨x2, hx2⟩ := decodeRle_encodeRow r width height y data _
      rw [hx2, decodeRle_dollar]
      rw [show runVal [] = 1 from rfl]
      rw [show (⟨0, y + 1, [], segWrite data width height y 0 r⟩ : RleSt) =
          ⟨0, y + 1, [], segWrite data width height y 0 r⟩ from rfl]
      rw [ih (by simp) width height (y + 1) (segWrite data width height y 0 r)]
      rw [rowsWrite_cons]

theorem popEmptyRows_eq_self (l : List (List Char)) (e : List Char)
    (hl : l.getLast? = some e) (he : e ≠ []) : popEmptyRows l = l := by
  rw [popEmptyRows]
  cases hrev : l.reverse with
  | nil =>
    rw [List.reverse_eq_nil_iff] at hrev
    subst hrev
    simp at hl
  | cons a t =>
    have hae : a = e := by
      have h2 : l.reverse.head? = some e := by
        rw [List.head?_reverse]
        exact hl
      rw [hrev] at h2
      injection h2 with h3
    subst hae
    rw [List.dropWhile_cons, if_neg (by simpa [List.isEmpty_iff] using he)]
    conv_rhs => rw [← List.reverse_reverse l, hrev]

theorem encodeRunsAux_flatten_ne_nil (t : List Nat) : ∀ (c run : Nat),
    (c ≠ 0 ∨ ∃ d ∈ t, d ≠ 0) → (encodeRunsAux c run t).flatten ≠ [] := by
  induction t with
  | nil =>
    intro c run h
    have hc : c ≠ 0 := by
      rcases h with h | ⟨d, hd, -⟩
      · exact h
      · simp at hd
    simp only [encodeRunsAux, if_neg hc, List.flatten_cons, List.flatten_nil,
      List.append_nil]
    exact runToken_ne_nil c run
  | cons d t' ih =>
    intro c run h
    simp only [encodeRunsAux]
    by_cases hd : d = c
    · rw [if_pos hd]
      apply ih c (run + 1)
      rcases h with h | ⟨e, he, hne⟩
      · exact Or.inl h
      · rcases List.mem_cons.mp he with h2 | h2
        · subst h2
          subst hd
          exact Or.inl hne
        · exact Or.inr ⟨e, h2, hne⟩
    · rw [if_neg hd]
      simp only [List.flatten_cons]
      intro hx
      exact runToken_ne_nil c run (List.append_eq_nil.mp hx).1

theorem encodeRow_ne_nil (r : List Nat) (hlive : ∃ c ∈ r, c ≠ 0) : encodeRow r ≠ [] := by
  cases r with
  | nil => simp at hlive
  | cons c t =>
    rw [encodeRow]
    apply encodeRunsAux_flatten_ne_nil t c 1
    obtain ⟨e, he, hne⟩ := hlive
    rcases List.mem_cons.mp he with h2 | h2
    · subst h2
      exact Or.inl hne
    · exact Or.inr ⟨e, h2, hne⟩

theorem getLast?_map {α β : Type} (f : α → β) (l : List α) :
    (l.map f).getLast? = l.getLast?.map f := by
  rw [← List.head?_reverse, ← List.head?_reverse, ← List.map_reverse]
  exact List.head?_map f l.reverse

/-- With a live cell in the last row, the trailing-empty-row pop is the
identity and the body is the straight join of the encoded rows. -/
theorem rleBody_eq (m : List (List Nat)) (hne : m ≠ [])
    (hlast : ∃ c ∈ m.getLastD [], c ≠ 0) :
    rleBody m = joinSep '$' (m.map encodeRow) ++ ['!'] := by
  rw [rleBody]
  have hsome : ∃ e, m.getLast? = some e := by
    cases hm : m.getLast? with
    | none =>
      rw [List.getLast?_eq_none_iff] at hm
      exact absurd hm hne
    | some e => exact ⟨e, rfl⟩
  obtain ⟨e, he⟩ := hsome
  have hgd : m.getLastD [] = e := by
    rw [List.getLastD_eq_getLast?, he]
    rfl
  rw [hgd] at hlast
  have hmap : (m.map encodeRow).getLast? = some (encodeRow e) := by
    rw [getLast?_map, he]
    rfl
  rw [popEmptyRows_eq_self (m.map encodeRow) (encodeRow e) hmap
    (encodeRow_ne_nil e hlast)]

theorem rleDims_to_rle (m : List (List Nat)) (hw : matWidth m ≠ 0)
    (hh : m.length ≠ 0) : rleDims (to_rle m [] [] []) = (matWidth m, m.length) := by
  rw [rleDims, rleScanned_to_rle]
  rw [if_neg (by simp [hw, hh])]

theorem rleCanvas_to_rle (m : List (List Nat)) (hne : m ≠ [])
    (hlast : ∃ c ∈ m.getLastD [], c ≠ 0) (hw : matWidth m ≠ 0) :
    rleCanvas (to_rle m [] [] []) =
      rowsWrite (fun _ _ => 0) (matWidth m) m.length 0 m := by
  have hh : m.length ≠ 0 := by
    intro hx
    exact hne (List.length_eq_zero.mp hx)
  have h1 : (rleDims (to_rle m [] [] [])).1 = matWidth m := by
    rw [rleDims_to_rle m hw hh]
  have h2 : (rleDims (to_rle m [] [] [])).2 = m.length := by
    rw [rleDims_to_rle m hw hh]
  have hpl : (rleScanned (to_rle m [] [] [])).plines = wrapChars [] (rleBody m) := by
    rw [rleScanned_to_rle]
  rw [rleCanvas, h1, h2, hpl]
  rw [wrapChars_flatten, List.nil_append]
  rw [rleBody_eq m hne hlast]
  exact decodeRle_rows m hne (matWidth m) m.length 0 (fun _ _ => 0)

/-- Decoding the canvas of `to_rle` output reproduces the matrix. -/
theorem rleCanvasMatrix_to_rle (m : List (List Nat)) (hne : m ≠ [])
    (hrect : matRect m) (hbin : matBinary m)
    (hlast : ∃ c ∈ m.getLastD [], c ≠ 0) (hw : matWidth m ≠ 0) :
    rleCanvasMatrix (to_rle m [] [] []) = m := by
  have hh : m.length ≠ 0 := by
    intro hx
    exact hne (List.length_eq_zero.mp hx)
  have h1 : (rleDims (to_rle m [] [] [])).1 = matWidth m := by
    rw [rleDims_to_rle m hw hh]
  have h2 : (rleDims (to_rle m [] [] [])).2 = m.length := by
    rw [rleDims_to_rle m hw hh]
  rw [rleCanvasMatrix, h1, h2, rleCanvas_to_rle m hne hlast hw]
  apply List.ext_getElem
  · simp
  · intro i hi1 hi2
    rw [List.getElem_map, List.getElem_range]
    have hi : i < m.length := by simpa using hi1
    have hrowlen : m[i].length = matWidth m := hrect m[i] (List.getElem_mem hi)
    apply List.ext_getElem
    · simp [hrowlen]
    · intro j hj1 hj2
      rw [List.getElem_map, List.getElem_range]
      have hj : j < matWidth m := by simpa using hj1
      show rowsWrite (fun _ _ => 0) (matWidth m) m.length 0 m i j = m[i][j]
      rw [rowsWrite]
      have hgd : (m.getD (i - 0) []).getD j 0 = m[i][j] := by
        rw [Nat.sub_zero, List.getD_eq_getElem _ _ hi,
          List.getD_eq_getElem _ _ (by omega)]
      by_cases hlive : m[i][j] ≠ 0
      · rw [if_pos ⟨by omega, by omega, by omega, hj, by rw [hgd]; exact hlive⟩]
        have hle : m[i][j] ≤ 1 := hbin m[i] (List.getElem_mem hi) m[i][j]
          (List.getElem_mem (by omega))
        omega
      · push_neg at hlive
        rw [if_neg (by rintro ⟨-, -, -, -, hx⟩; rw [hgd] at hx; exact hx hlive)]
        omega

theorem findIdx_id_zero (bs : List Bool) (h : bs.getD 0 false = true) :
    bs.findIdx id = 0 := by
  cases bs with
  | nil => simp at h
  | cons b t =>
    rw [List.getD_cons_zero] at h
    subst h
    rw [List.findIdx_cons]
    rfl

/-- With live cells on all four borders, the bounding-box trim of
`parse_rle` is the identity. -/
theorem rleTrim_eq_self (m : List (List Nat)) (hne : m ≠ []) (hrect : matRect m)
    (hrow0 : ∃ j < matWidth m, mget m 0 j ≠ 0)
    (hrowlast : ∃ j < matWidth m, mget m (m.length - 1) j ≠ 0)
    (hcol0 : ∃ i < m.length, mget m i 0 ≠ 0)
    (hcollast : ∃ i < m.length, mget m i (matWidth m - 1) ≠ 0) :
    rleTrim m = m := by
  have hlen : 0 < m.length := List.length_pos.mpr hne
  have hwpos : 0 < matWidth m := by
    obtain ⟨j, hj, -⟩ := hrow0
    omega
  have hrow0len : (m.getD 0 []).length = matWidth m :=
    hrect (m.getD 0 []) (getD_mem_of_lt m 0 hlen [])
  have hrowlastlen : (m.getD (m.length - 1) []).length = matWidth m :=
    hrect (m.getD (m.length - 1) []) (getD_mem_of_lt m _ (by omega) [])
  -- row flags
  have hr0 : (m.map (fun row => row.any (fun c => c != 0))).getD 0 false = true := by
    rw [getD_map_getD m _ 0 hlen false []]
    rw [any_getD_iff]
    obtain ⟨j, hj, hne2⟩ := hrow0
    exact ⟨j, by omega, hne2⟩
  have hrlast : (m.map (fun row => row.any (fun c => c != 0))).getD
      (m.length - 1) false = true := by
    rw [getD_map_getD m _ _ (by omega) false []]
    rw [any_getD_iff]
    obtain ⟨j, hj, hne2⟩ := hrowlast
    exact ⟨j, by omega, hne2⟩
  have hrowsany : (m.map (fun row => row.any (fun c => c != 0))).any id = true :=
    any_id_of_getD _ 0 (by simpa using hlen) hr0
  have hrfind : (m.map (fun row => row.any (fun c => c != 0))).findIdx id = 0 :=
    findIdx_id_zero _ hr0
  have hrrevfind :
      (m.map (fun row => row.any (fun c => c != 0))).reverse.findIdx id = 0 := by
    apply findIdx_id_zero
    rw [getD_reverse _ 0 (by simpa using hlen) false]
    simpa using hrlast
  -- column flags
  have hc0 : ((List.range (matWidth m)).map
      (fun j => m.any (fun row => row.getD j 0 != 0))).getD 0 false = true := by
    rw [getD_map_getD _ _ 0 (by simpa using hwpos) false 0]
    rw [getD_range _ 0 hwpos]
    rw [any_row_getD_iff]
    exact hcol0
  have hclast : ((List.range (matWidth m)).map
      (fun j => m.any (fun row => row.getD j 0 != 0))).getD
      (matWidth m - 1) false = true := by
    rw [getD_map_getD _ _ _ (by simpa using (by omega : matWidth m - 1 < matWidth m)) false 0]
    rw [getD_range _ _ (by omega)]
    rw [any_row_getD_iff]
    exact hcollast
  have hcolsany : ((List.range (matWidth m)).map
      (fun j => m.any (fun row => row.getD j 0 != 0))).any id = true :=
    any_id_of_getD _ 0 (by simpa using hwpos) hc0
  have hcfind : ((List.range (matWidth m)).map
      (fun j => m.any (fun row => row.getD j 0 != 0))).findIdx id = 0 :=
    findIdx_id_zero _ hc0
  have hcrevfind : ((List.range (matWidth m)).map
      (fun j => m.any (fun row => row.getD j 0 != 0))).reverse.findIdx id = 0 := by
    apply findIdx_id_zero
    rw [getD_reverse _ 0 (by simpa using hwpos) false]
    simpa using hclast
  simp only [rleTrim]
  rw [hrowsany, hcolsany]
  simp only [Bool.and_self, if_true]
  rw [hrfind, hrrevfind, hcfind, hcrevfind]
  simp only [List.length_map, List.length_range, List.drop_zero, Nat.sub_zero]
  rw [show m.length - 1 + 1 = m.length from by omega]
  rw [List.take_length]
  rw [show matWidth m - 1 + 1 = matWidth m from by omega]
  have hrows : ∀ row ∈ m, row.take (matWidth m) = row := by
    intro row hrow
    rw [← hrect row hrow]
    exact List.take_length row
  rw [List.map_congr_left (fun row hrow => hrows row hrow)]
  exact List.map_id m

theorem getLastD_eq_getD (l : List (List Nat)) (hne : l ≠ []) (d d2 : List Nat) :
    l.getLastD d = l.getD (l.length - 1) d2 := by
  cases hr : l.reverse with
  | nil =>
    rw [List.reverse_eq_nil_iff] at hr
    exact absurd hr hne
  | cons a t =>
    have h1 : l.getLastD d = a := by
      rw [List.getLastD_eq_getLast?, ← List.head?_reverse, hr]
      rfl
    have h2 : l.reverse.getD 0 d2 = a := by
      rw [hr]
      rfl
    rw [getD_reverse l 0 (by simpa using List.length_pos.mpr hne) d2] at h2
    rw [Nat.sub_zero] at h2
    rw [h1, ← h2]

/-- C2 (amended): for every non-empty rectangular 0/1 matrix with no
fully-dead border rows or columns, `parse_rle` inverts `to_rle` (with the
default empty metadata) exactly, and in particular the live-cell count is
preserved. -/
theorem C2_rle_round_trip (m : List (List Nat)) (hne : m ≠ []) (hrect : matRect m)
    (hbin : matBinary m) (hnb : noDeadBorders m) :
    (parse_rle (to_rle m [] [] [])).1 = m ∧
    countLive (parse_rle (to_rle m [] [] [])).1 = countLive m := by
  obtain ⟨hbr, hbc⟩ := hnb
  have hlen : 0 < m.length := List.length_pos.mpr hne
  -- the first row and its live cell
  have hr0mem : m.getD 0 [] ∈ m := getD_mem_of_lt m 0 hlen []
  have hrow0live : ∃ c ∈ m.getD 0 [], c ≠ 0 := by
    cases m with
    | nil => exact absurd rfl hne
    | cons r0 rest => exact hbr r0 (by rw [borderRows]; simp)
  have hr0len : (m.getD 0 []).length = matWidth m := hrect _ hr0mem
  have hwpos : 0 < matWidth m := by
    obtain ⟨c, hc, -⟩ := hrow0live
    have := List.length_pos.mpr (List.ne_nil_of_mem hc)
    omega
  -- the last row and its live cell
  have hlastrow : ∃ c ∈ m.getD (m.length - 1) [], c ≠ 0 := by
    cases hm : m with
    | nil => exact absurd hm hne
    | cons r0 rest =>
      have h1 := hbr (m.getLastD r0) (by rw [hm, borderRows]; simp [← hm])
      rw [getLastD_eq_getD m hne r0 []] at h1
      rw [← hm]
      exact h1
  have hlast' : ∃ c ∈ m.getLastD [], c ≠ 0 := by
    rw [getLastD_eq_getD m hne [] []]
    exact hlastrow
  -- existential forms over mget
  have hrow0 : ∃ j < matWidth m, mget m 0 j ≠ 0 := by
    obtain ⟨c, hc, hcne⟩ := hrow0live
    obtain ⟨j, hj, rfl⟩ := List.mem_iff_getElem.mp hc
    refine ⟨j, by omega, ?_⟩
    rw [mget, List.getD_eq_getElem _ _ hj]
    exact hcne
  have hrowlast : ∃ j < matWidth m, mget m (m.length - 1) j ≠ 0 := by
    obtain ⟨c, hc, hcne⟩ := hlastrow
    obtain ⟨j, hj, rfl⟩ := List.mem_iff_getElem.mp hc
    have hlastlen : (m.getD (m.length - 1) []).length = matWidth m :=
      hrect _ (getD_mem_of_lt m _ (by omega) [])
    refine ⟨j, by omega, ?_⟩
    rw [mget, List.getD_eq_getElem _ _ hj]
    exact hcne
  have hcol0 : ∃ i < m.length, mget m i 0 ≠ 0 :=
    hbc 0 (by rw [borderCols, if_neg (by omega)]; simp)
  have hcollast : ∃ i < m.length, mget m i (matWidth m - 1) ≠ 0 :=
    hbc (matWidth m - 1) (by rw [borderCols, if_neg (by omega)]; simp)
  have hmain : (parse_rle (to_rle m [] [] [])).1 = m := by
    rw [parse_rle, rleCanvasMatrix_to_rle m hne hrect hbin hlast' (by omega),
      rleTrim_eq_self m hne hrect hrow0 hrowlast hcol0 hcollast]
  exact ⟨hmain, by rw [hmain]⟩

/-- Witness for C2 at the 1×1 live matrix: the round trip reproduces it. -/
theorem C2_witness :
    ([[1]] : List (List Nat)) ≠ [] ∧ matRect [[1]] ∧ matBinary [[1]] ∧
    noDeadBorders [[1]] ∧
    (parse_rle (to_rle [[1]] [] [] [])).1 = [[1]] ∧
    countLive (parse_rle (to_rle [[1]] [] [] [])).1 = countLive [[1]] :=
  ⟨by decide, by decide, by decide, by decide,
   (C2_rle_round_trip [[1]] (by decide) (by decide) (by decide) (by decide)).1,
   (C2_rle_round_trip [[1]] (by decide) (by decide) (by decide) (by decide)).2⟩

/-- C2 counterexample: the empty matrix satisfies every hypothesis of the
claim (rectangular, 0/1, vacuously no dead border rows or columns), but
`parse_rle (to_rle [])` is the untrimmed 100×100 fallback canvas, not
`[]` — the header `x = 0, y = 0` forces the 100×100 default and the
all-dead canvas skips the trim. -/
theorem C2_counterexample :
    matRect ([] : List (List Nat)) ∧ matBinary ([] : List (List Nat)) ∧
    noDeadBorders ([] : List (List Nat)) ∧
    (parse_rle (to_rle [] [] [] [])).1 ≠ [] := by
  refine ⟨by decide, by decide, by decide, ?_⟩
  have hscan : rleScanned (to_rle [] [] [] []) =
      ⟨PatternMeta.empty, 0, 0, wrapChars [] (rleBody [])⟩ := rleScanned_to_rle []
  have hdims : rleDims (to_rle [] [] [] []) = (100, 100) := by
    rw [rleDims, hscan]
    simp
  have h1 : (rleDims (to_rle [] [] [] [])).1 = 100 := by rw [hdims]
  have h2 : (rleDims (to_rle [] [] [] [])).2 = 100 := by rw [hdims]
  have hpl : (rleScanned (to_rle [] [] [] [])).plines = wrapChars [] (rleBody []) := by
    rw [hscan]
  have hcanvas : rleCanvas (to_rle [] [] [] []) = fun _ _ => 0 := by
    rw [rleCanvas, h1, h2, hpl]
    rw [wrapChars_flatten, List.nil_append, show rleBody [] = ['!'] from by decide]
    rfl
  have hM : rleCanvasMatrix (to_rle [] [] [] []) =
      (List.range 100).map (fun _ => (List.range 100).map (fun _ => (0 : Nat))) := by
    rw [rleCanvasMatrix, h1, h2]
    apply List.map_congr_left
    intro yy hyy
    apply List.map_congr_left
    intro xx hxx
    rw [hcanvas]
  have htrim : rleTrim ((List.range 100).map
      (fun _ => (List.range 100).map (fun _ => (0 : Nat)))) =
      (List.range 100).map (fun _ => (List.range 100).map (fun _ => (0 : Nat))) := by
    decide
  have hfinal : (parse_rle (to_rle [] [] [] [])).1 =
      (List.range 100).map (fun _ => (List.range 100).map (fun _ => (0 : Nat))) := by
    rw [parse_rle, hM, htrim]
  rw [hfinal]
  intro hnil
  have := congrArg List.length hnil
  simp at this
